import Mathlib

/-!
Verification of the wordlist spider (src/wordlist_spider.py).

The development shallowly embeds the crawler's core: URL normalization and
domain scoping (class URLValidator, built on CPython urllib.parse semantics),
word tokenization and filtering (class TextProcessor / IgnoreListManager),
word-count aggregation (collections.Counter as an insertion-ordered
association list, with most_common as a stable descending sort), and the
crawl loop (WebSpider.crawl_page / WebSpider.crawl_website) as a small-step
relation over an explicit state.  External collaborators (the HTTP transport
and the BeautifulSoup HTML parser) are parameters of the model, as the design
document prescribes.

Strings are modelled as Lean strings / lists of characters; the embedding of
str.lower and of the regex word-character class covers the ASCII fragment
(the source's documented inputs are ASCII URLs and ASCII word tokens).
-/

namespace WordSpider

/-! ### Character helpers (ASCII fragment of the Python semantics) -/

/-- ASCII letter, the class `[a-zA-Z]` of the source's word regex. -/
def isAsciiAlphaCh (c : Char) : Bool :=
  ('a' ≤ c && c ≤ 'z') || ('A' ≤ c && c ≤ 'Z')

/-- ASCII digit. -/
def isAsciiDigitCh (c : Char) : Bool :=
  '0' ≤ c && c ≤ '9'

/-- ASCII word character: the ASCII fragment of the regex class `\w`
(letters, digits, underscore), which also determines the `\b` boundaries
of the source's pattern `\b[a-zA-Z]+\b`. -/
def isWordCh (c : Char) : Bool :=
  isAsciiAlphaCh c || isAsciiDigitCh c || c = '_'

/-- ASCII lowercasing of one character, the ASCII fragment of Python
`str.lower`. -/
def lowerChar (c : Char) : Char :=
  if 'A' ≤ c && c ≤ 'Z' then Char.ofNat (c.toNat + 32) else c

/-- Lowercase a character list. -/
def lowerL (l : List Char) : List Char := l.map lowerChar

/-- Lowercase a string (ASCII fragment of Python `str.lower`). -/
def lowerStr (s : String) : String := String.mk (lowerL s.toList)

/-! ### Generic splitting helpers used by the urllib embedding -/

/-- Split a list at the first occurrence of `c`: returns the prefix before
the first `c` and, when `c` occurs, the suffix after it (Python
`str.split(c, 1)` / `str.find`). -/
def splitAtFirst (c : Char) : List Char → List Char × Option (List Char)
  | [] => ([], none)
  | x :: xs =>
    if x = c then ([], some xs)
    else
      let r := splitAtFirst c xs
      (x :: r.1, r.2)

/-! ### The urllib.parse embedding

The source calls `urlparse`, `urlunparse` and `urljoin` from CPython's
urllib.parse.  Claims C3 and C7 depend on `urlparse`/`urlunparse`
(`urljoin`, used only to resolve relative hrefs inside the external link
extraction collaborator, stays behind the collaborator boundary).  The
functions below transcribe CPython 3.11's `urlsplit`, `_splitparams` and
`urlunsplit`: leading C0-control/space stripping, tab/CR/LF removal, scheme
lowercasing on parse, netloc delimited by the first of `/?#`, params split
only for schemes in `uses_params`, and the `uses_netloc` test on
re-serialization.  CPython raises ValueError on a netloc with unbalanced
square brackets, and on a bracketed netloc that is not a valid IP literal;
the embedding is total and reports a conservative superset of those inputs
(any netloc containing a bracket) through a separate Boolean flag.  The
NFKC check `_checknetloc`, which can only fire on non-ASCII netlocs, is
outside the modelled (ASCII) fragment. -/

/-- A C0 control character or space, the set CPython's urlsplit strips
from the left of its input. -/
def isC0ControlOrSpace (c : Char) : Bool := c.toNat ≤ 32

/-- Schemes for which urlunsplit re-inserts the `//` netloc marker
(`uses_netloc`; its empty-string entry is unreachable behind the
nonempty-scheme test and is omitted). -/
def usesNetlocSchemes : List (List Char) :=
  ["ftp", "http", "gopher", "nntp", "telnet", "imap", "wais", "file",
   "mms", "https", "shttp", "snews", "prospero", "rtsp", "rtsps", "rtspu",
   "rsync", "svn", "svn+ssh", "sftp", "nfs", "git", "git+ssh", "ws",
   "wss"].map String.toList

/-- Schemes for which urlparse splits `;params` off the path
(`uses_params`), the empty scheme included. -/
def usesParamsSchemes : List (List Char) :=
  ["", "ftp", "hdl", "prospero", "http", "imap", "https", "shttp", "rtsp",
   "rtsps", "rtspu", "sip", "sips", "mms", "sftp", "tel"].map String.toList

/-- The characters CPython's urlsplit removes from the input
(`_UNSAFE_URL_BYTES_TO_REMOVE`). -/
def removeUnsafe (l : List Char) : List Char :=
  l.filter (fun c => !(c = '\t' || c = '\r' || c = '\n'))

/-- Characters allowed after the first character of a URL scheme
(`scheme_chars` in urllib.parse). -/
def schemeChar (c : Char) : Bool :=
  isAsciiAlphaCh c || isAsciiDigitCh c || c = '+' || c = '-' || c = '.'

/-- Scheme splitting step of CPython urlsplit: if the text before the first
colon is a valid scheme (nonempty, ASCII-alpha first character, scheme
characters after), it is removed and lowercased; otherwise the scheme is
empty and the input is untouched. -/
def splitScheme (l : List Char) : List Char × List Char :=
  match splitAtFirst ':' l with
  | (_, none) => ([], l)
  | (pre, some rest) =>
    match pre with
    | [] => ([], l)
    | c :: cs =>
      if isAsciiAlphaCh c && cs.all schemeChar then
        (lowerL (c :: cs), rest)
      else ([], l)

/-- A character that does not terminate the netloc (urlsplit delimits the
netloc at the first `/`, `?` or `#`). -/
def netlocChar (c : Char) : Bool :=
  !(c = '/' || c = '?' || c = '#')

/-- Parsed URL components, as produced by CPython urlparse. -/
structure UrlRec where
  scheme : List Char
  netloc : List Char
  path : List Char
  params : List Char
  query : List Char
  fragment : List Char
deriving DecidableEq

/-- Netloc splitting step of urlsplit: when the remaining text begins with
`//`, the netloc extends to the first `/`, `?` or `#`. -/
def splitNetloc (l : List Char) : List Char × List Char :=
  if l.take 2 = ['/', '/'] then
    let rest := l.drop 2
    (rest.takeWhile netlocChar, rest.dropWhile netlocChar)
  else ([], l)

/-- Fragment splitting step of urlsplit: split at the first `#` when one
occurs (`url.split('#', 1)`). -/
def splitFragment (l : List Char) : List Char × List Char :=
  match splitAtFirst '#' l with
  | (a, none) => (a, [])
  | (a, some b) => (a, b)

/-- Query splitting step of urlsplit: split at the first `?` when one
occurs. -/
def splitQuery (l : List Char) : List Char × List Char :=
  match splitAtFirst '?' l with
  | (a, none) => (a, [])
  | (a, some b) => (a, b)

/-- CPython urlsplit (allow_fragments=True).  The Boolean is true when the
netloc contains a square bracket, a conservative superset of the inputs on
which CPython raises ValueError. -/
def urlsplitL (input : List Char) : UrlRec × Bool :=
  let url0 := removeUnsafe (input.dropWhile isC0ControlOrSpace)
  let sr := splitScheme url0
  let nr := splitNetloc sr.2
  let bad := nr.1.contains '[' || nr.1.contains ']'
  let fr := splitFragment nr.2
  let qr := splitQuery fr.1
  (⟨sr.1, nr.1, qr.1, [], qr.2, fr.2⟩, bad)

/-- CPython `_splitparams`: split `;params` off the last path segment (the
params search starts at the last `/` when a slash is present). -/
def splitParamsL (path : List Char) : List Char × List Char :=
  if path.contains ';' then
    match splitAtFirst '/' path.reverse with
    | (_, none) =>
      match splitAtFirst ';' path with
      | (a, some b) => (a, b)
      | (a, none) => (a, [])
    | (afterRev, some beforeRev) =>
      let afterSeg := afterRev.reverse
      match splitAtFirst ';' afterSeg with
      | (a, some b) => (beforeRev.reverse ++ '/' :: a, b)
      | (_, none) => (path, [])
  else (path, [])

/-- CPython urlparse: urlsplit followed, for schemes in uses_params, by
params splitting. -/
def urlparseL (input : List Char) : UrlRec × Bool :=
  let sp := urlsplitL input
  let r := sp.1
  if r.scheme ∈ usesParamsSchemes then
    let pr := splitParamsL r.path
    ({ r with path := pr.1, params := pr.2 }, sp.2)
  else (r, sp.2)

/-- CPython urlunsplit: the `//` marker is emitted for a nonempty netloc,
and for a nonempty uses_netloc scheme whose path does not already begin
with `//`. -/
def urlunsplitL (scheme netloc path query fragment : List Char) : List Char :=
  let url := path
  let url :=
    if netloc ≠ [] ∨ (scheme ≠ [] ∧ scheme ∈ usesNetlocSchemes ∧ url.take 2 ≠ ['/', '/']) then
      let url := if url ≠ [] ∧ url.head? ≠ some '/' then '/' :: url else url
      '/' :: '/' :: (netloc ++ url)
    else url
  let url := if scheme ≠ [] then scheme ++ ':' :: url else url
  let url := if query ≠ [] then url ++ '?' :: query else url
  if fragment ≠ [] then url ++ '#' :: fragment else url

/-- CPython urlunparse: reattach params to the path, then urlunsplit. -/
def urlunparseL (r : UrlRec) : List Char :=
  let pp := if r.params ≠ [] then r.path ++ ';' :: r.params else r.path
  urlunsplitL r.scheme r.netloc pp r.query r.fragment

/-- True when CPython's urlparse would raise ValueError on this input
(unbalanced brackets in the netloc); `URLValidator.normalize_url` and
`URLValidator.get_domain` propagate that exception. -/
def parseRaises (s : String) : Bool := (urlparseL s.toList).2

/-- URLValidator.normalize_url (src lines 29-40): re-serialize the parsed
URL with a lowercased netloc and an empty fragment. -/
def normalize_url (s : String) : String :=
  let p := (urlparseL s.toList).1
  String.mk (urlunparseL ⟨p.scheme, lowerL p.netloc, p.path, p.params, p.query, []⟩)

/-- URLValidator.get_domain (src lines 42-45): the lowercased netloc. -/
def get_domain (s : String) : String :=
  String.mk (lowerL (urlparseL s.toList).1.netloc)

/-- Strip one leading "www." for domain comparison (src lines 53-57). -/
def stripWww (l : List Char) : List Char :=
  if l.take 4 = ['w', 'w', 'w', '.'] then l.drop 4 else l

/-- URLValidator.is_same_domain (src lines 47-59): compare the two
lowercased domains after stripping a leading "www." from each. -/
def is_same_domain (u v : String) : Bool :=
  let d1 := lowerL (get_domain u).toList
  let d2 := lowerL (get_domain v).toList
  decide (stripWww d1 = stripWww d2)

/-- URLValidator.is_valid_url (src lines 61-68): nonempty scheme and netloc;
a parse exception yields False. -/
def is_valid_url (s : String) : Bool :=
  if parseRaises s then false
  else
    let p := (urlparseL s.toList).1
    !p.scheme.isEmpty && !p.netloc.isEmpty

/-! ### Tokenization (TextProcessor, src lines 122-152)

The source compiles the pattern `\b[a-zA-Z]+\b` and applies
`findall(text.lower())`.  Because both flanks of a match must be word
boundaries and letters, digits and underscore are all word characters, a
match of this pattern is exactly a maximal run of word characters that
consists solely of letters: a run of letters directly adjacent to a digit
or underscore has no boundary there and is not matched at all. -/

/-- Collect the maximal runs of word characters of a character list
(accumulator holds the current run reversed). -/
def wordRunsAux : List Char → List Char → List (List Char)
  | [], acc => if acc = [] then [] else [acc.reverse]
  | c :: cs, acc =>
    if isWordCh c then wordRunsAux cs (c :: acc)
    else if acc = [] then wordRunsAux cs [] else acc.reverse :: wordRunsAux cs []

/-- Maximal runs of word characters. -/
def wordRuns (l : List Char) : List (List Char) := wordRunsAux l []

/-- Model of `re.findall(r'\b[a-zA-Z]+\b', s)` on ASCII text: the maximal
word-character runs that consist solely of ASCII letters. -/
def findallWords (s : String) : List String :=
  ((wordRuns s.toList).filter (fun r => r.all isAsciiAlphaCh)).map String.mk

/-- IgnoreListManager.should_ignore (src lines 117-119): membership of the
lowercased word in the ignore set. -/
def should_ignore (ignore : List String) (w : String) : Bool :=
  ignore.contains (lowerStr w)

/-- TextProcessor.extract_words (src lines 149-152): find the word-pattern
matches of the lowercased text, then keep words that are not ignored and
have length greater than 2. -/
def extract_words (ignore : List String) (text : String) : List String :=
  (findallWords (lowerStr text)).filter
    (fun w => !should_ignore ignore w && decide (w.length > 2))

/-! ### Counters (collections.Counter as an insertion-ordered list)

Python dicts preserve insertion order: a Counter is modelled as an
association list whose list order is the key-insertion order.  Updating an
existing key changes its count in place; a new key is appended. -/

/-- Add one occurrence of a word to a counter (`Counter` increment). -/
def counterAdd : List (String × Nat) → String → List (String × Nat)
  | [], w => [(w, 1)]
  | (k, n) :: rest, w =>
    if k = w then (k, n + 1) :: rest else (k, n) :: counterAdd rest w

/-- Build the per-page counter `Counter(words)`: counts in first-occurrence
key order. -/
def counterOf (ws : List String) : List (String × Nat) :=
  ws.foldl counterAdd []

/-- Merge one keyed count into a counter (one step of `Counter.update`). -/
def counterMergeOne : List (String × Nat) → String × Nat → List (String × Nat)
  | [], e => [e]
  | (k, n) :: rest, (w, m) =>
    if k = w then (k, n + m) :: rest else (k, n) :: counterMergeOne rest (w, m)

/-- `Counter.update(other)` (src line 237): add the other counter's counts,
iterating it in its own insertion order; existing keys keep their position,
new keys are appended in first-global-encounter order. -/
def counterUpdate (c page : List (String × Nat)) : List (String × Nat) :=
  page.foldl counterMergeOne c

/-- Dict assignment `page_word_counts[url] = ...` (src line 238): replace
the value of an existing key in place, else append. -/
def recordSet : List (String × List (String × Nat)) → String →
    List (String × Nat) → List (String × List (String × Nat))
  | [], url, v => [(url, v)]
  | (k, w) :: rest, url, v =>
    if k = url then (k, v) :: rest else (k, w) :: recordSet rest url v

/-! ### most_common (stable descending sort)

`Counter.most_common` sorts the items by count descending; CPython's sort
is stable and `reverse=True` / `heapq.nlargest` preserve the order of
equal-count items, so ties keep the counter's insertion order. -/

/-- Insert an item before the first element whose count is not larger
(stable insertion for a descending sort). -/
def insertByCount (x : String × Nat) : List (String × Nat) → List (String × Nat)
  | [] => [x]
  | y :: ys => if x.2 < y.2 then y :: insertByCount x ys else x :: y :: ys

/-- Stable sort by count descending, the model of
`Counter.most_common()` (src lines 306 and 354). -/
def mostCommon : List (String × Nat) → List (String × Nat)
  | [] => []
  | x :: xs => insertByCount x (mostCommon xs)

/-- `most_common(n)`: the first n items of the sorted sequence. -/
def top_n (n : Nat) (c : List (String × Nat)) : List (String × Nat) :=
  (mostCommon c).take n

/-! ### HTML to text (TextProcessor.extract_text_from_html, src lines 129-147)

The tag/tree parsing itself is the external BeautifulSoup collaborator; the
whitespace cleanup of the rendered text (src lines 140-142) is repository
code and is transcribed faithfully.  The ASCII newline forms and ASCII
whitespace are modelled. -/

/-- ASCII whitespace, the fragment of Python `str.strip` relevant here. -/
def isPySpace (c : Char) : Bool :=
  c = ' ' || c = '\t' || c = '\n' || c = '\r' || c = '\x0b' || c = '\x0c'

/-- Python `str.strip()` on a character list (ASCII whitespace). -/
def stripEnds (l : List Char) : List Char :=
  ((l.dropWhile isPySpace).reverse.dropWhile isPySpace).reverse

/-- Python `str.splitlines()` restricted to the LF / CR / CRLF terminators:
each terminator ends a line, and a nonempty final segment without a
terminator forms a last line. -/
def splitLinesAux : List Char → List Char → List (List Char)
  | [], acc => if acc = [] then [] else [acc.reverse]
  | '\r' :: '\n' :: rest, acc => acc.reverse :: splitLinesAux rest []
  | c :: rest, acc =>
    if c = '\n' || c = '\r' then acc.reverse :: splitLinesAux rest []
    else splitLinesAux rest (c :: acc)

/-- Split a line into segments at each (non-overlapping, leftmost)
occurrence of two consecutive spaces, Python `line.split("  ")`. -/
def splitTwoSpaces : List Char → List (List Char)
  | [] => [[]]
  | ' ' :: ' ' :: rest => [] :: splitTwoSpaces rest
  | c :: rest =>
    match splitTwoSpaces rest with
    | [] => [[c]]
    | a :: as => (c :: a) :: as

/-- The whitespace cleanup of src lines 140-142: strip each line, split
each stripped line on double spaces, strip each chunk, join the nonempty
chunks with single spaces. -/
def cleanupText (t : String) : String :=
  let lines := (splitLinesAux t.toList []).map stripEnds
  let chunks := lines.flatMap (fun ln => (splitTwoSpaces ln).map stripEnds)
  String.mk (List.intercalate [' '] (chunks.filter (fun c => c ≠ [])))

/-- Modelled from the spec: the external HTML parser collaborator
(BeautifulSoup `get_text`), which the design document describes as
rendering the remaining markup to plain text.  Modelled as dropping every
`<`...`>` tag span; the script/style content removal of src lines 135-137
is not exercised by any claim and is outside this model. -/
def stripTagsAux : List Char → Bool → List Char
  | [], _ => []
  | c :: cs, true => if c = '>' then stripTagsAux cs false else stripTagsAux cs true
  | c :: cs, false => if c = '<' then stripTagsAux cs true else c :: stripTagsAux cs false

/-- TextProcessor.extract_text_from_html: the collaborator's text rendering
followed by the repository's whitespace cleanup. -/
def extract_text_from_html (html : String) : String :=
  cleanupText (String.mk (stripTagsAux html.toList false))

/-! ### The crawl model (WebSpider, src lines 171-313)

External collaborators are parameters: `fetch` models
`WebSpider.fetch_page` (src lines 194-210), returning none when the
request raises, the response status is an error, or the content type is
not HTML/XHTML, and the body text otherwise; `getText` models the
BeautifulSoup rendering inside extract_text_from_html; `linksOf` models
`TextProcessor.extract_links` (src lines 154-168: anchor hrefs resolved
against the page URL, normalized, kept when valid — all behind the
BeautifulSoup/urljoin boundary).  Everything else — the visited check, the
visited insertion, the empty-body test, word extraction and aggregation,
the same-domain link filter, and the frontier update — is transcribed from
crawl_page and crawl_website. -/

structure Env where
  fetch : String → Option String
  getText : String → String
  linksOf : String → String → Finset String
  ignoreWords : List String

/-- The mutable crawl state: visited_urls, urls_to_visit, word_counts and
page_word_counts of WebSpider / crawl_website. -/
structure SpiderState where
  visited : Finset String
  pending : Finset String
  counts : List (String × Nat)
  records : List (String × List (String × Nat))
deriving DecidableEq

/-- The frontier offer of src lines 293-294: insert every offered URL that
is not already visited into the pending set. -/
def offer (s : SpiderState) (links : Finset String) : SpiderState :=
  { s with pending := s.pending ∪ links.filter (fun l => l ∉ s.visited) }

/-- WebSpider.crawl_page (src lines 212-265): skip an already-visited URL,
otherwise mark it visited; a missing or empty body (`if not html_content`)
contributes nothing; on success count the page's words into the global
counter, store the page record, and return the extracted links that are
same-domain with the current page and not yet visited. -/
def crawl_page (env : Env) (s : SpiderState) (url : String) :
    SpiderState × Finset String :=
  if url ∈ s.visited then (s, ∅)
  else
    let s1 : SpiderState := { s with visited := insert url s.visited }
    match env.fetch url with
    | none => (s1, ∅)
    | some html =>
      if html = "" then (s1, ∅)
      else
        let words := extract_words env.ignoreWords (cleanupText (env.getText html))
        let pageCounter := counterOf words
        let s2 : SpiderState :=
          { s1 with counts := counterUpdate s1.counts pageCounter,
                    records := recordSet s1.records url pageCounter }
        (s2, (env.linksOf html url).filter
          (fun l => is_same_domain l url = true ∧ l ∉ s2.visited))

/-- One loop iteration of crawl_website (src lines 287-294) processing
`url`: pop it from the pending set, run crawl_page, and offer the returned
links (filtering them once more against the visited set, src line 293). -/
def stepOn (env : Env) (s : SpiderState) (url : String) : SpiderState :=
  let s0 : SpiderState := { s with pending := s.pending.erase url }
  let r := crawl_page env s0 url
  offer r.1 r.2

/-- The initial crawl state of crawl_website (src lines 269-285): the
normalized seed alone is pending. -/
def initState (startUrl : String) : SpiderState :=
  { visited := ∅, pending := {normalize_url startUrl}, counts := [], records := [] }

/-- A crawl execution: a sequence of loop iterations, recording the URL
popped (`urls_to_visit.pop()` chooses an arbitrary pending element, so any
pending URL may be the one processed). -/
inductive Run (env : Env) : SpiderState → List String → SpiderState → Prop
  | nil (s : SpiderState) : Run env s [] s
  | cons (s : SpiderState) (url : String) (us : List String) (s' : SpiderState)
      (h : url ∈ s.pending) (hr : Run env (stepOn env s url) us s') :
      Run env s (url :: us) s'

/-- A finite universe closed under link discovery: every link the
environment can produce lies in U.  A finite link graph in the sense of
the design document. -/
def LinksIn (env : Env) (U : Finset String) : Prop :=
  ∀ url html, env.fetch url = some html → env.linksOf html url ⊆ U

/-- Invariant of claim C4: the visited and pending sets are disjoint and
every page-record key is visited. -/
def StateInv (s : SpiderState) : Prop :=
  Disjoint s.visited s.pending ∧ ∀ k ∈ s.records.map Prod.fst, k ∈ s.visited

/-- Invariant of claim C3: every visited and every pending URL is
same-domain with the seed. -/
def DomainInv (seed : String) (s : SpiderState) : Prop :=
  (∀ u ∈ s.visited, is_same_domain u seed = true) ∧
  (∀ u ∈ s.pending, is_same_domain u seed = true)

/-! ### Concrete test sites for the example-based claims -/

def urlA : String := "http://site.com/a"

def urlB : String := "http://site.com/b"

/-- A two-page site whose pages link to each other in a cycle
(A links to B, B links back to A). -/
def cycleEnv : Env :=
  { fetch := fun u => if u = urlA then some "pa" else if u = urlB then some "pb" else none
  , getText := fun _ => ""
  , linksOf := fun h _ =>
      if h = "pa" then {urlB} else if h = "pb" then {urlA} else (∅ : Finset String)
  , ignoreWords := [] }

/-- A one-page site with no outbound links. -/
def soloEnv : Env :=
  { fetch := fun u => if u = urlA then some "solo page here" else none
  , getText := fun t => t
  , linksOf := fun _ _ => (∅ : Finset String)
  , ignoreWords := [] }

/-- A site whose only page fetches successfully but with an empty body. -/
def emptyBodyEnv : Env :=
  { fetch := fun u => if u = urlA then some "" else none
  , getText := fun t => t
  , linksOf := fun _ _ => (∅ : Finset String)
  , ignoreWords := [] }

/-! ## Lemmas -/

/-! ### Splitting lemmas -/

theorem splitAtFirst_cons_pos {c : Char} (xs : List Char) :
    splitAtFirst c (c :: xs) = ([], some xs) := by
  simp [splitAtFirst]

theorem splitAtFirst_cons_neg {c x : Char} (xs : List Char) (hx : x ≠ c) :
    splitAtFirst c (x :: xs) =
      (x :: (splitAtFirst c xs).1, (splitAtFirst c xs).2) := by
  simp [splitAtFirst, hx]

theorem splitAtFirst_none {c : Char} {l a : List Char}
    (h : splitAtFirst c l = (a, none)) : a = l ∧ c ∉ l := by
  induction l generalizing a with
  | nil =>
    have h1 := congrArg Prod.fst h
    simp only [splitAtFirst] at h1
    simp [← h1]
  | cons x xs ih =>
    rcases hsp : splitAtFirst c xs with ⟨a', r⟩
    by_cases hx : x = c
    · subst hx
      rw [splitAtFirst_cons_pos] at h
      have h2 := congrArg Prod.snd h
      simp at h2
    · rw [splitAtFirst_cons_neg xs hx, hsp] at h
      have h1 : x :: a' = a := congrArg Prod.fst h
      have h2 : r = none := congrArg Prod.snd h
      subst h2
      rcases ih hsp with ⟨ha, hc⟩
      subst h1
      refine ⟨by rw [ha], ?_⟩
      intro hm
      rcases List.mem_cons.mp hm with h | h
      · exact hx h.symm
      · exact hc h

theorem splitAtFirst_some {c : Char} {l a b : List Char}
    (h : splitAtFirst c l = (a, some b)) : l = a ++ c :: b ∧ c ∉ a := by
  induction l generalizing a b with
  | nil =>
    have h2 := congrArg Prod.snd h
    simp only [splitAtFirst] at h2
    simp at h2
  | cons x xs ih =>
    rcases hsp : splitAtFirst c xs with ⟨a', r⟩
    by_cases hx : x = c
    · subst hx
      rw [splitAtFirst_cons_pos] at h
      have h1 : ([] : List Char) = a := congrArg Prod.fst h
      have h2 := congrArg Prod.snd h
      simp only [Option.some.injEq] at h2
      subst h2
      simp [← h1]
    · rw [splitAtFirst_cons_neg xs hx, hsp] at h
      have h1 : x :: a' = a := congrArg Prod.fst h
      have h2 : r = some b := congrArg Prod.snd h
      subst h2
      rcases ih hsp with ⟨hl, hc⟩
      subst h1
      refine ⟨by simp [hl], ?_⟩
      intro hm
      rcases List.mem_cons.mp hm with h | h
      · exact hx h.symm
      · exact hc h

/-! ### Shape lemmas for the crawl step -/

theorem offer_visited (s : SpiderState) (L : Finset String) :
    (offer s L).visited = s.visited := rfl

theorem offer_counts (s : SpiderState) (L : Finset String) :
    (offer s L).counts = s.counts := rfl

theorem offer_records (s : SpiderState) (L : Finset String) :
    (offer s L).records = s.records := rfl

theorem offer_pending (s : SpiderState) (L : Finset String) :
    (offer s L).pending = s.pending ∪ L.filter (fun l => l ∉ s.visited) := rfl

theorem offer_empty (s : SpiderState) : offer s ∅ = s := by
  simp [offer]

theorem crawl_page_mem {env : Env} {s : SpiderState} {url : String}
    (h : url ∈ s.visited) : crawl_page env s url = (s, ∅) := by
  simp [crawl_page, h]

theorem crawl_page_fail {env : Env} {s : SpiderState} {url : String}
    (h : url ∉ s.visited)
    (hf : env.fetch url = none ∨ env.fetch url = some "") :
    crawl_page env s url = ({ s with visited := insert url s.visited }, ∅) := by
  rcases hf with hf | hf
  · simp [crawl_page, h, hf]
  · simp [crawl_page, h, hf]

theorem crawl_page_success {env : Env} {s : SpiderState} {url html : String}
    (h : url ∉ s.visited) (hf : env.fetch url = some html) (hne : html ≠ "") :
    crawl_page env s url =
      (let pageCounter :=
        counterOf (extract_words env.ignoreWords (cleanupText (env.getText html)))
       ({ visited := insert url s.visited,
          pending := s.pending,
          counts := counterUpdate s.counts pageCounter,
          records := recordSet s.records url pageCounter },
        (env.linksOf html url).filter
          (fun l => is_same_domain l url = true ∧ l ∉ insert url s.visited))) := by
  simp [crawl_page, h, hf, hne]

theorem stepOn_eq (env : Env) (s : SpiderState) (url : String) :
    stepOn env s url =
      offer (crawl_page env { s with pending := s.pending.erase url } url).1
            (crawl_page env { s with pending := s.pending.erase url } url).2 := rfl

theorem stepOn_of_mem {env : Env} {s : SpiderState} {url : String}
    (h : url ∈ s.visited) :
    stepOn env s url = { s with pending := s.pending.erase url } := by
  rw [stepOn_eq, crawl_page_mem (s := { s with pending := s.pending.erase url }) h,
      offer_empty]

theorem stepOn_of_fail {env : Env} {s : SpiderState} {url : String}
    (h : url ∉ s.visited)
    (hf : env.fetch url = none ∨ env.fetch url = some "") :
    stepOn env s url =
      { s with visited := insert url s.visited,
               pending := s.pending.erase url } := by
  rw [stepOn_eq, crawl_page_fail (s := { s with pending := s.pending.erase url }) h hf,
      offer_empty]

theorem stepOn_of_success {env : Env} {s : SpiderState} {url html : String}
    (h : url ∉ s.visited) (hf : env.fetch url = some html) (hne : html ≠ "") :
    stepOn env s url =
      (let pageCounter :=
        counterOf (extract_words env.ignoreWords (cleanupText (env.getText html)))
       let visited' := insert url s.visited
       let ret := (env.linksOf html url).filter
          (fun l => is_same_domain l url = true ∧ l ∉ visited')
       { visited := visited',
         pending := (s.pending.erase url) ∪ ret.filter (fun l => l ∉ visited'),
         counts := counterUpdate s.counts pageCounter,
         records := recordSet s.records url pageCounter }) := by
  rw [stepOn_eq, crawl_page_success (s := { s with pending := s.pending.erase url }) h hf hne]
  rfl

/-! ### Step invariants -/

theorem stepOn_visited (env : Env) (s : SpiderState) (url : String) :
    (stepOn env s url).visited =
      if url ∈ s.visited then s.visited else insert url s.visited := by
  by_cases h : url ∈ s.visited
  · rw [stepOn_of_mem h]
    simp [h]
  · rcases hf : env.fetch url with _ | html
    · rw [stepOn_of_fail h (Or.inl hf)]
      simp [h]
    · by_cases hh : html = ""
      · subst hh
        rw [stepOn_of_fail h (Or.inr hf)]
        simp [h]
      · rw [stepOn_of_success h hf hh]
        simp [h]

theorem stepOn_visited_mono (env : Env) (s : SpiderState) (url : String) :
    s.visited ⊆ (stepOn env s url).visited := by
  rw [stepOn_visited]
  by_cases h : url ∈ s.visited
  · simp [h]
  · simp only [h, if_false]
    exact Finset.subset_insert url s.visited

theorem stepOn_visited_card {env : Env} {s : SpiderState} {url : String}
    (h : url ∉ s.visited) :
    (stepOn env s url).visited.card = s.visited.card + 1 := by
  rw [stepOn_visited]
  simp only [h, if_false]
  exact Finset.card_insert_of_not_mem h

theorem insert_erase_disjoint {V P : Finset String} {url : String}
    (hd : Disjoint V P) : Disjoint (insert url V) (P.erase url) := by
  rw [Finset.disjoint_left]
  intro x hx hp
  rcases Finset.mem_insert.mp hx with rfl | hx
  · exact (Finset.mem_erase.mp hp).1 rfl
  · exact (Finset.disjoint_left.mp hd hx) (Finset.erase_subset _ _ hp)

theorem recordSet_keys {rs : List (String × List (String × Nat))}
    {url : String} {v : List (String × Nat)} :
    ∀ k ∈ (recordSet rs url v).map Prod.fst, k = url ∨ k ∈ rs.map Prod.fst := by
  induction rs with
  | nil =>
    intro k hk
    simp [recordSet] at hk
    exact Or.inl hk
  | cons e rest ih =>
    intro k hk
    rcases e with ⟨ek, ev⟩
    by_cases he : ek = url
    · simp [recordSet, he] at hk
      rcases hk with hk | hk
      · exact Or.inl hk
      · exact Or.inr (by simp [hk])
    · simp [recordSet, he] at hk
      rcases hk with hk | hk
      · exact Or.inr (by simp [hk])
      · rcases ih k (by simpa using hk) with h | h
        · exact Or.inl h
        · exact Or.inr (by simp at h ⊢; exact Or.inr h)

theorem stepOn_stateInv {env : Env} {s : SpiderState} {url : String}
    (h : StateInv s) : StateInv (stepOn env s url) := by
  obtain ⟨hd, hr⟩ := h
  by_cases hv : url ∈ s.visited
  · rw [stepOn_of_mem hv]
    exact ⟨hd.mono_right (Finset.erase_subset _ _), hr⟩
  · have hfail : ∀ hf : env.fetch url = none ∨ env.fetch url = some "",
        StateInv (stepOn env s url) := by
      intro hf
      rw [stepOn_of_fail hv hf]
      refine ⟨insert_erase_disjoint hd, ?_⟩
      intro k hk
      exact Finset.mem_insert_of_mem (hr k hk)
    rcases hfetch : env.fetch url with _ | html
    · exact hfail (Or.inl hfetch)
    · by_cases hh : html = ""
      · subst hh
        exact hfail (Or.inr hfetch)
      · rw [stepOn_of_success hv hfetch hh]
        constructor
        · rw [Finset.disjoint_union_right]
          refine ⟨insert_erase_disjoint hd, ?_⟩
          rw [Finset.disjoint_left]
          intro x hx hp
          exact (Finset.mem_filter.mp hp).2 hx
        · intro k hk
          rcases recordSet_keys k hk with rfl | hk
          · exact Finset.mem_insert_self k _
          · exact Finset.mem_insert_of_mem (hr k hk)

theorem is_same_domain_refl (u : String) : is_same_domain u u = true := by
  simp [is_same_domain]

theorem is_same_domain_trans {a b c : String}
    (h1 : is_same_domain a b = true) (h2 : is_same_domain b c = true) :
    is_same_domain a c = true := by
  simp only [is_same_domain, decide_eq_true_eq] at h1 h2 ⊢
  exact h1.trans h2

theorem stepOn_domainInv {env : Env} {s : SpiderState} {url seed : String}
    (hsd : is_same_domain url seed = true) (h : DomainInv seed s) :
    DomainInv seed (stepOn env s url) := by
  obtain ⟨hv, hp⟩ := h
  by_cases hmem : url ∈ s.visited
  · rw [stepOn_of_mem hmem]
    exact ⟨hv, fun u hu => hp u (Finset.erase_subset _ _ hu)⟩
  · have hfail : ∀ _hf : env.fetch url = none ∨ env.fetch url = some "",
        DomainInv seed (stepOn env s url) := by
      intro hf
      rw [stepOn_of_fail hmem hf]
      constructor
      · intro u hu
        rcases Finset.mem_insert.mp hu with rfl | hu
        · exact hsd
        · exact hv u hu
      · intro u hu
        exact hp u (Finset.erase_subset _ _ hu)
    rcases hfetch : env.fetch url with _ | html
    · exact hfail (Or.inl hfetch)
    · by_cases hh : html = ""
      · subst hh
        exact hfail (Or.inr hfetch)
      · rw [stepOn_of_success hmem hfetch hh]
        constructor
        · intro u hu
          rcases Finset.mem_insert.mp hu with rfl | hu
          · exact hsd
          · exact hv u hu
        · intro u hu
          rcases Finset.mem_union.mp hu with hu | hu
          · exact hp u (Finset.erase_subset _ _ hu)
          · have hu1 := Finset.mem_filter.mp hu
            have hu2 := Finset.mem_filter.mp hu1.1
            exact is_same_domain_trans hu2.2.1 hsd

theorem stepOn_inU {env : Env} {s : SpiderState} {url : String} {U : Finset String}
    (hL : LinksIn env U) (hP : s.pending ⊆ U) (hV : s.visited ⊆ U) (hurl : url ∈ U) :
    (stepOn env s url).pending ⊆ U ∧ (stepOn env s url).visited ⊆ U := by
  have hVins : insert url s.visited ⊆ U := Finset.insert_subset hurl hV
  by_cases hmem : url ∈ s.visited
  · rw [stepOn_of_mem hmem]
    exact ⟨fun x hx => hP (Finset.erase_subset _ _ hx), hV⟩
  · have hfail : ∀ _hf : env.fetch url = none ∨ env.fetch url = some "",
        (stepOn env s url).pending ⊆ U ∧ (stepOn env s url).visited ⊆ U := by
      intro hf
      rw [stepOn_of_fail hmem hf]
      exact ⟨fun x hx => hP (Finset.erase_subset _ _ hx), hVins⟩
    rcases hfetch : env.fetch url with _ | html
    · exact hfail (Or.inl hfetch)
    · by_cases hh : html = ""
      · subst hh
        exact hfail (Or.inr hfetch)
      · rw [stepOn_of_success hmem hfetch hh]
        refine ⟨?_, hVins⟩
        intro x hx
        rcases Finset.mem_union.mp hx with hx | hx
        · exact hP (Finset.erase_subset _ _ hx)
        · have hx1 := Finset.mem_filter.mp hx
          have hx2 := Finset.mem_filter.mp hx1.1
          exact hL url html hfetch hx2.1

/-! ### Run invariants -/

theorem run_visited_mono {env : Env} {s : SpiderState} {us : List String}
    {s' : SpiderState} (h : Run env s us s') : s.visited ⊆ s'.visited := by
  induction h with
  | nil => exact Finset.Subset.refl _
  | cons s url us s' hmem hrun ih =>
    exact (stepOn_visited_mono env s url).trans ih

theorem run_stateInv {env : Env} {s : SpiderState} {us : List String}
    {s' : SpiderState} (h : Run env s us s') (hinv : StateInv s) : StateInv s' := by
  induction h with
  | nil => exact hinv
  | cons s url us s' hmem hrun ih => exact ih (stepOn_stateInv hinv)

theorem stepOn_disjoint {env : Env} {s : SpiderState} {url : String}
    (hd : Disjoint s.visited s.pending) :
    Disjoint (stepOn env s url).visited (stepOn env s url).pending := by
  by_cases hv : url ∈ s.visited
  · rw [stepOn_of_mem hv]
    exact hd.mono_right (Finset.erase_subset _ _)
  · have hfail : ∀ _hf : env.fetch url = none ∨ env.fetch url = some "",
        Disjoint (stepOn env s url).visited (stepOn env s url).pending := by
      intro hf
      rw [stepOn_of_fail hv hf]
      exact insert_erase_disjoint hd
    rcases hfetch : env.fetch url with _ | html
    · exact hfail (Or.inl hfetch)
    · by_cases hh : html = ""
      · subst hh
        exact hfail (Or.inr hfetch)
      · rw [stepOn_of_success hv hfetch hh]
        rw [Finset.disjoint_union_right]
        refine ⟨insert_erase_disjoint hd, ?_⟩
        rw [Finset.disjoint_left]
        intro x hx hp
        exact (Finset.mem_filter.mp hp).2 hx

theorem run_disjoint {env : Env} {s : SpiderState} {us : List String}
    {s' : SpiderState} (h : Run env s us s') (hd : Disjoint s.visited s.pending) :
    Disjoint s'.visited s'.pending := by
  induction h with
  | nil => exact hd
  | cons s url us s' hmem hrun ih => exact ih (stepOn_disjoint hd)

theorem run_nodup_aux {env : Env} {s : SpiderState} {us : List String}
    {s' : SpiderState} (h : Run env s us s') (hd : Disjoint s.visited s.pending) :
    us.Nodup ∧ ∀ u ∈ us, u ∉ s.visited ∧ u ∈ s'.visited := by
  induction h with
  | nil => exact ⟨List.nodup_nil, by simp⟩
  | cons s url us s' hmem hrun ih =>
    have hnv : url ∉ s.visited := fun hv => Finset.disjoint_left.mp hd hv hmem
    have hurl1 : url ∈ (stepOn env s url).visited := by
      rw [stepOn_visited]
      simp [hnv]
    obtain ⟨hnd, hall⟩ := ih (stepOn_disjoint hd)
    refine ⟨List.nodup_cons.mpr ⟨?_, hnd⟩, ?_⟩
    · intro hin
      exact (hall url hin).1 hurl1
    · intro u hu
      rcases List.mem_cons.mp hu with rfl | hu
      · exact ⟨hnv, run_visited_mono hrun hurl1⟩
      · exact ⟨fun hv => (hall u hu).1 (stepOn_visited_mono env s url hv), (hall u hu).2⟩

theorem run_domainInv {env : Env} {seed : String} {s : SpiderState}
    {us : List String} {s' : SpiderState} (h : Run env s us s')
    (hinv : DomainInv seed s) :
    DomainInv seed s' ∧ ∀ u ∈ us, is_same_domain u seed = true := by
  induction h with
  | nil => exact ⟨hinv, by simp⟩
  | cons s url us s' hmem hrun ih =>
    have hsd : is_same_domain url seed = true := hinv.2 url hmem
    obtain ⟨hinv', hall⟩ := ih (stepOn_domainInv hsd hinv)
    refine ⟨hinv', ?_⟩
    intro u hu
    rcases List.mem_cons.mp hu with rfl | hu
    · exact hsd
    · exact hall u hu

theorem run_inU {env : Env} {U : Finset String} {s : SpiderState}
    {us : List String} {s' : SpiderState} (h : Run env s us s')
    (hL : LinksIn env U) (hP : s.pending ⊆ U) (hV : s.visited ⊆ U) :
    s'.pending ⊆ U ∧ s'.visited ⊆ U := by
  induction h with
  | nil => exact ⟨hP, hV⟩
  | cons s url us s' hmem hrun ih =>
    obtain ⟨hP', hV'⟩ := stepOn_inU hL hP hV (hP hmem)
    exact ih hP' hV'

theorem run_length_le {env : Env} {U : Finset String} {s : SpiderState}
    {us : List String} {s' : SpiderState} (h : Run env s us s')
    (hL : LinksIn env U) (hP : s.pending ⊆ U) (hV : s.visited ⊆ U)
    (hd : Disjoint s.visited s.pending) : us.length ≤ U.card := by
  obtain ⟨hnd, hall⟩ := run_nodup_aux h hd
  obtain ⟨_, hV'⟩ := run_inU h hL hP hV
  have hsub : us.toFinset ⊆ U := by
    intro u hu
    exact hV' ((hall u (List.mem_toFinset.mp hu)).2)
  calc us.length = us.toFinset.card := (List.toFinset_card_of_nodup hnd).symm
    _ ≤ U.card := Finset.card_le_card hsub

theorem run_to_done {env : Env} {U : Finset String} (hL : LinksIn env U) :
    ∀ (n : Nat) (s : SpiderState), s.pending ⊆ U → s.visited ⊆ U →
      Disjoint s.visited s.pending → U.card - s.visited.card ≤ n →
      ∃ us s', Run env s us s' ∧ s'.pending = ∅ := by
  intro n
  induction n with
  | zero =>
    intro s hP hV hd hn
    have hcard : U.card ≤ s.visited.card := Nat.sub_eq_zero_iff_le.mp (Nat.le_zero.mp hn)
    have hVU : s.visited = U := Finset.eq_of_subset_of_card_le hV hcard
    have hpe : s.pending = ∅ := by
      rw [Finset.eq_empty_iff_forall_not_mem]
      intro x hx
      exact Finset.disjoint_left.mp hd (hVU ▸ hP hx) hx
    exact ⟨[], s, Run.nil s, hpe⟩
  | succ n ih =>
    intro s hP hV hd hn
    rcases Finset.eq_empty_or_nonempty s.pending with hpe | ⟨u, hu⟩
    · exact ⟨[], s, Run.nil s, hpe⟩
    · have hnv : u ∉ s.visited := fun hv => Finset.disjoint_left.mp hd hv hu
      obtain ⟨hP', hV'⟩ := stepOn_inU hL hP hV (hP hu)
      have hcard : (stepOn env s u).visited.card = s.visited.card + 1 :=
        stepOn_visited_card hnv
      have hle : (stepOn env s u).visited.card ≤ U.card := Finset.card_le_card hV'
      have hn' : U.card - (stepOn env s u).visited.card ≤ n := by
        omega
      obtain ⟨us, s', hrun, hdone⟩ :=
        ih (stepOn env s u) hP' hV' (stepOn_disjoint hd) hn'
      exact ⟨u :: us, s', Run.cons s u us s' hu hrun, hdone⟩

/-! ### Sorting lemmas for most_common -/

theorem mem_insertByCount {x z : String × Nat} {l : List (String × Nat)} :
    z ∈ insertByCount x l ↔ z = x ∨ z ∈ l := by
  induction l with
  | nil => simp [insertByCount]
  | cons y ys ih =>
    by_cases hxy : x.2 < y.2
    · rw [insertByCount, if_pos hxy]
      simp only [List.mem_cons, ih]
      tauto
    · rw [insertByCount, if_neg hxy]
      simp only [List.mem_cons]

theorem pairwise_insertByCount {x : String × Nat} {l : List (String × Nat)}
    (h : List.Pairwise (fun a b => b.2 ≤ a.2) l) :
    List.Pairwise (fun a b => b.2 ≤ a.2) (insertByCount x l) := by
  induction l with
  | nil => simp [insertByCount]
  | cons y ys ih =>
    rcases List.pairwise_cons.mp h with ⟨hy, hys⟩
    by_cases hxy : x.2 < y.2
    · rw [insertByCount, if_pos hxy]
      refine List.pairwise_cons.mpr ⟨?_, ih hys⟩
      intro z hz
      rcases mem_insertByCount.mp hz with rfl | hz
      · exact Nat.le_of_lt hxy
      · exact hy z hz
    · rw [insertByCount, if_neg hxy]
      refine List.pairwise_cons.mpr ⟨?_, h⟩
      intro z hz
      rcases List.mem_cons.mp hz with rfl | hz
      · exact Nat.le_of_not_lt hxy
      · exact (hy z hz).trans (Nat.le_of_not_lt hxy)

theorem mostCommon_pairwise (c : List (String × Nat)) :
    List.Pairwise (fun a b => b.2 ≤ a.2) (mostCommon c) := by
  induction c with
  | nil => simp [mostCommon]
  | cons x xs ih => exact pairwise_insertByCount ih

theorem filter_insertByCount (x : String × Nat) (l : List (String × Nat)) (k : Nat) :
    (insertByCount x l).filter (fun p => decide (p.2 = k)) =
      if x.2 = k then x :: l.filter (fun p => decide (p.2 = k))
      else l.filter (fun p => decide (p.2 = k)) := by
  induction l with
  | nil =>
    by_cases hx : x.2 = k
    · simp [insertByCount, hx]
    · simp [insertByCount, hx]
  | cons y ys ih =>
    by_cases hxy : x.2 < y.2
    · rw [insertByCount, if_pos hxy]
      by_cases hx : x.2 = k
      · have hy : ¬(y.2 = k) := by omega
        simp [List.filter_cons, hx, hy, ih]
      · simp [List.filter_cons, hx, ih]
    · rw [insertByCount, if_neg hxy]
      by_cases hx : x.2 = k
      · simp [List.filter_cons, hx]
      · simp [List.filter_cons, hx]

theorem mostCommon_filter (c : List (String × Nat)) (k : Nat) :
    (mostCommon c).filter (fun p => decide (p.2 = k)) =
      c.filter (fun p => decide (p.2 = k)) := by
  induction c with
  | nil => simp [mostCommon]
  | cons x xs ih =>
    rw [mostCommon, filter_insertByCount]
    by_cases hx : x.2 = k
    · simp [List.filter_cons, hx, ih]
    · simp [List.filter_cons, hx, ih]

/-! ### Tokenizer lemmas -/

theorem wordRunsAux_ne_nil :
    ∀ (l acc : List Char) (r : List Char), r ∈ wordRunsAux l acc → r ≠ [] := by
  intro l
  induction l with
  | nil =>
    intro acc r hr
    by_cases hacc : acc = []
    · simp [wordRunsAux, hacc] at hr
    · simp only [wordRunsAux, if_neg hacc, List.mem_singleton] at hr
      subst hr
      simpa using hacc
  | cons c cs ih =>
    intro acc r hr
    by_cases hw : isWordCh c = true
    · rw [wordRunsAux, if_pos hw] at hr
      exact ih (c :: acc) r hr
    · rw [wordRunsAux, if_neg hw] at hr
      by_cases hacc : acc = []
      · rw [if_pos hacc] at hr
        exact ih [] r hr
      · rw [if_neg hacc] at hr
        rcases List.mem_cons.mp hr with rfl | hr
        · simpa using hacc
        · exact ih [] r hr

theorem findallWords_shape {s : String} {w : String} (h : w ∈ findallWords s) :
    w.toList ≠ [] ∧ ∀ c ∈ w.toList, isAsciiAlphaCh c = true := by
  rcases List.mem_map.mp h with ⟨r, hr, rfl⟩
  rcases List.mem_filter.mp hr with ⟨hmem, hall⟩
  have htl : (String.mk r).toList = r := rfl
  rw [htl]
  refine ⟨wordRunsAux_ne_nil _ _ r hmem, ?_⟩
  intro c hc
  exact List.all_eq_true.mp hall c hc

theorem extract_words_mem {ig : List String} {t w : String}
    (h : w ∈ extract_words ig t) :
    should_ignore ig w = false ∧ w.length > 2 ∧
      w.toList ≠ [] ∧ ∀ c ∈ w.toList, isAsciiAlphaCh c = true := by
  rcases List.mem_filter.mp h with ⟨hmem, hp⟩
  simp only [Bool.and_eq_true, Bool.not_eq_true', decide_eq_true_eq] at hp
  exact ⟨hp.1, hp.2, findallWords_shape hmem⟩

/-! ### Normalization drops the fragment: no hash sign survives parsing -/

theorem toNat_ofNat_of_valid {n : Nat} (h : n.isValidChar) :
    (Char.ofNat n).toNat = n := by
  unfold Char.ofNat
  rw [dif_pos h]
  simp [Char.ofNatAux, Char.toNat, UInt32.toNat]

theorem upper_toNat_le {c : Char} (h : c ≤ 'Z') : c.toNat ≤ 90 := by
  simpa [Char.le_def, UInt32.le_def, BitVec.le_def] using h

theorem upper_le_toNat {c : Char} (h : 'A' ≤ c) : 65 ≤ c.toNat := by
  simpa [Char.le_def, UInt32.le_def, BitVec.le_def] using h

theorem lowerChar_hash {c : Char} (h : lowerChar c = '#') : c = '#' := by
  unfold lowerChar at h
  split at h
  · rename_i hc
    exfalso
    simp only [Bool.and_eq_true, decide_eq_true_eq] at hc
    have h1 := upper_le_toNat hc.1
    have h2 := upper_toNat_le hc.2
    have hvalid : (c.toNat + 32).isValidChar := Or.inl (by omega)
    have := congrArg Char.toNat h
    rw [toNat_ofNat_of_valid hvalid] at this
    have hh : ('#').toNat = 35 := by decide
    omega
  · exact h

theorem lowerL_no_hash {l : List Char} (h : '#' ∉ l) : '#' ∉ lowerL l := by
  intro hm
  rcases List.mem_map.mp hm with ⟨c, hc, he⟩
  rw [lowerChar_hash he] at hc
  exact h hc

theorem lowerChar_idem (c : Char) : lowerChar (lowerChar c) = lowerChar c := by
  by_cases h : ('A' ≤ c && c ≤ 'Z') = true
  · have hstep : lowerChar c = Char.ofNat (c.toNat + 32) := by
      unfold lowerChar
      rw [if_pos h]
    simp only [Bool.and_eq_true, decide_eq_true_eq] at h
    have h1 := upper_le_toNat h.1
    have h2 := upper_toNat_le h.2
    have hvalid : (c.toNat + 32).isValidChar := Or.inl (by omega)
    have htn : (lowerChar c).toNat = c.toNat + 32 := by
      rw [hstep, toNat_ofNat_of_valid hvalid]
    rw [hstep]
    conv => lhs; unfold lowerChar
    rw [if_neg]
    simp only [Bool.and_eq_true, decide_eq_true_eq, not_and]
    intro _ hle
    have := upper_toNat_le hle
    rw [← hstep, htn] at this
    omega
  · have hstep : lowerChar c = c := by
      unfold lowerChar
      rw [if_neg h]
    rw [hstep, hstep]

theorem lowerL_idem (l : List Char) : lowerL (lowerL l) = lowerL l := by
  simp [lowerL, List.map_map, Function.comp_def, lowerChar_idem]

theorem splitScheme_no_hash (l : List Char) : '#' ∉ (splitScheme l).1 := by
  unfold splitScheme
  rcases hsp : splitAtFirst ':' l with ⟨pre, r⟩
  rcases r with _ | rest
  · dsimp only
    simp
  · rcases pre with _ | ⟨c, cs⟩
    · dsimp only
      simp
    · dsimp only
      by_cases hc : (isAsciiAlphaCh c && cs.all schemeChar) = true
      · rw [if_pos hc]
        simp only [Bool.and_eq_true] at hc
        intro hm
        rcases List.mem_map.mp hm with ⟨d, hd, he⟩
        rw [lowerChar_hash he] at hd
        rcases List.mem_cons.mp hd with he2 | hd
        · rw [← he2] at hc
          exact absurd hc.1 (by decide)
        · have := List.all_eq_true.mp hc.2 _ hd
          exact absurd this (by decide)
      · rw [if_neg hc]
        simp

theorem netloc_no_hash (l : List Char) : '#' ∉ l.takeWhile netlocChar := by
  intro hm
  have := List.mem_takeWhile_imp hm
  exact absurd this (by decide)

theorem splitParamsL_subset (path : List Char) :
    (∀ x ∈ (splitParamsL path).1, x ∈ path) ∧
    (∀ x ∈ (splitParamsL path).2, x ∈ path) := by
  unfold splitParamsL
  by_cases hsc : path.contains ';'
  · rw [if_pos hsc]
    rcases hsp : splitAtFirst '/' path.reverse with ⟨afterRev, r⟩
    rcases r with _ | beforeRev
    · dsimp only
      rcases hsp2 : splitAtFirst ';' path with ⟨a, r2⟩
      rcases r2 with _ | b
      · dsimp only
        obtain ⟨ha, _⟩ := splitAtFirst_none hsp2
        subst ha
        exact ⟨fun x hx => hx, fun x hx => by simp at hx⟩
      · dsimp only
        obtain ⟨hpl, _⟩ := splitAtFirst_some hsp2
        constructor
        · intro x hx
          rw [hpl]
          simp [hx]
        · intro x hx
          rw [hpl]
          simp [hx]
    · dsimp only
      obtain ⟨hrev, _⟩ := splitAtFirst_some hsp
      have hpath : path = beforeRev.reverse ++ '/' :: afterRev.reverse := by
        have := congrArg List.reverse hrev
        simpa using this
      rcases hsp3 : splitAtFirst ';' afterRev.reverse with ⟨a, r3⟩
      rcases r3 with _ | b
      · dsimp only
        exact ⟨fun x hx => hx, fun x hx => by simp at hx⟩
      · dsimp only
        obtain ⟨hseg, _⟩ := splitAtFirst_some hsp3
        constructor
        · intro x hx
          rw [hpath, hseg]
          rcases List.mem_append.mp hx with hx | hx
          · simp [hx]
          · rcases List.mem_cons.mp hx with rfl | hx
            · simp
            · simp [hx]
        · intro x hx
          rw [hpath, hseg]
          simp [hx]
  · rw [if_neg hsc]
    exact ⟨fun x hx => hx, fun x hx => by simp at hx⟩

theorem splitAtFirst_fst_subset (c : Char) (l : List Char) :
    ∀ x ∈ (splitAtFirst c l).1, x ∈ l := by
  rcases h : splitAtFirst c l with ⟨a, r⟩
  rcases r with _ | b
  · obtain ⟨ha, _⟩ := splitAtFirst_none h
    subst ha
    exact fun x hx => hx
  · obtain ⟨hl, _⟩ := splitAtFirst_some h
    intro x hx
    rw [hl]
    simp [hx]

theorem splitNetloc_fst_no_hash (l : List Char) : '#' ∉ (splitNetloc l).1 := by
  unfold splitNetloc
  by_cases hif : l.take 2 = ['/', '/']
  · rw [if_pos hif]
    exact netloc_no_hash _
  · rw [if_neg hif]
    simp

theorem splitFragment_fst_no_hash (l : List Char) : '#' ∉ (splitFragment l).1 := by
  unfold splitFragment
  rcases h : splitAtFirst '#' l with ⟨a, r⟩
  rcases r with _ | b
  · dsimp only
    obtain ⟨ha, hc⟩ := splitAtFirst_none h
    subst ha
    exact hc
  · dsimp only
    exact (splitAtFirst_some h).2

theorem splitQuery_subset (l : List Char) :
    (∀ x ∈ (splitQuery l).1, x ∈ l) ∧ (∀ x ∈ (splitQuery l).2, x ∈ l) := by
  unfold splitQuery
  rcases h : splitAtFirst '?' l with ⟨a, r⟩
  rcases r with _ | b
  · dsimp only
    obtain ⟨ha, _⟩ := splitAtFirst_none h
    subst ha
    exact ⟨fun x hx => hx, fun x hx => by simp at hx⟩
  · dsimp only
    obtain ⟨hl, _⟩ := splitAtFirst_some h
    constructor
    · intro x hx
      rw [hl]
      simp [hx]
    · intro x hx
      rw [hl]
      simp [hx]

theorem urlsplitL_no_hash (input : List Char) :
    '#' ∉ (urlsplitL input).1.scheme ∧ '#' ∉ (urlsplitL input).1.netloc ∧
    '#' ∉ (urlsplitL input).1.path ∧ '#' ∉ (urlsplitL input).1.query ∧
    (urlsplitL input).1.params = [] := by
  unfold urlsplitL
  dsimp only
  refine ⟨splitScheme_no_hash _, splitNetloc_fst_no_hash _, ?_, ?_, rfl⟩
  · intro hm
    exact splitFragment_fst_no_hash _ ((splitQuery_subset _).1 _ hm)
  · intro hm
    exact splitFragment_fst_no_hash _ ((splitQuery_subset _).2 _ hm)

theorem urlparseL_no_hash (input : List Char) :
    '#' ∉ (urlparseL input).1.scheme ∧ '#' ∉ (urlparseL input).1.netloc ∧
    '#' ∉ (urlparseL input).1.path ∧ '#' ∉ (urlparseL input).1.params ∧
    '#' ∉ (urlparseL input).1.query := by
  obtain ⟨h1, h2, h3, h4, h5⟩ := urlsplitL_no_hash input
  unfold urlparseL
  by_cases hsch : (urlsplitL input).1.scheme ∈ usesParamsSchemes
  · rw [if_pos hsch]
    dsimp only
    refine ⟨h1, h2, ?_, ?_, h4⟩
    · intro hm
      exact h3 ((splitParamsL_subset _).1 _ hm)
    · intro hm
      exact h3 ((splitParamsL_subset _).2 _ hm)
  · rw [if_neg hsch]
    refine ⟨h1, h2, h3, ?_, h4⟩
    rw [h5]
    simp

theorem urlunsplitL_mem {scheme netloc path query : List Char} {x : Char}
    (hx : x ∈ urlunsplitL scheme netloc path query []) :
    x ∈ scheme ∨ x ∈ netloc ∨ x ∈ path ∨ x ∈ query ∨
      x = '/' ∨ x = ':' ∨ x = '?' := by
  unfold urlunsplitL at hx
  dsimp only at hx
  rw [if_neg (by simp)] at hx
  have h2 : ∀ y, y ∈ (if path ≠ [] ∧ path.head? ≠ some '/' then '/' :: path else path) →
      y ∈ path ∨ y = '/' := by
    intro y hy
    split at hy
    · rcases List.mem_cons.mp hy with rfl | hy
      · exact Or.inr rfl
      · exact Or.inl hy
    · exact Or.inl hy
  have h1 : ∀ y, y ∈ (if netloc ≠ [] ∨ (scheme ≠ [] ∧ scheme ∈ usesNetlocSchemes ∧
        path.take 2 ≠ ['/', '/']) then
        '/' :: '/' :: (netloc ++ (if path ≠ [] ∧ path.head? ≠ some '/' then '/' :: path else path))
      else path) →
      y ∈ netloc ∨ y ∈ path ∨ y = '/' := by
    intro y hy
    split at hy
    · rcases List.mem_cons.mp hy with rfl | hy
      · exact Or.inr (Or.inr rfl)
      · rcases List.mem_cons.mp hy with rfl | hy
        · exact Or.inr (Or.inr rfl)
        · rcases List.mem_append.mp hy with hy | hy
          · exact Or.inl hy
          · rcases h2 y hy with hy | hy
            · exact Or.inr (Or.inl hy)
            · exact Or.inr (Or.inr hy)
    · exact Or.inr (Or.inl hy)
  split at hx
  · rcases List.mem_append.mp hx with hx | hx
    · split at hx
      · rcases List.mem_append.mp hx with hx | hx
        · tauto
        · rcases List.mem_cons.mp hx with rfl | hx
          · tauto
          · rcases h1 x hx with h | h | h <;> tauto
      · rcases h1 x hx with h | h | h <;> tauto
    · rcases List.mem_cons.mp hx with rfl | hx <;> tauto
  · split at hx
    · rcases List.mem_append.mp hx with hx | hx
      · tauto
      · rcases List.mem_cons.mp hx with rfl | hx
        · tauto
        · rcases h1 x hx with h | h | h <;> tauto
    · rcases h1 x hx with h | h | h <;> tauto

theorem urlunparseL_mem {r : UrlRec} {x : Char}
    (hfr : r.fragment = []) (hx : x ∈ urlunparseL r) :
    x ∈ r.scheme ∨ x ∈ r.netloc ∨ x ∈ r.path ∨ x ∈ r.params ∨ x ∈ r.query ∨
      x = '/' ∨ x = ':' ∨ x = '?' ∨ x = ';' := by
  unfold urlunparseL at hx
  rw [hfr] at hx
  by_cases hp : r.params ≠ []
  · rw [if_pos hp] at hx
    rcases urlunsplitL_mem hx with h | h | h | h | h | h | h
    · tauto
    · tauto
    · simp only [List.mem_append, List.mem_cons] at h
      tauto
    · tauto
    · tauto
    · tauto
    · tauto
  · rw [if_neg hp] at hx
    rcases urlunsplitL_mem hx with h | h | h | h | h | h | h <;> tauto

theorem normalize_url_no_hash (raw : String) :
    '#' ∉ (normalize_url raw).toList := by
  intro hm
  have hx : '#' ∈ urlunparseL
      ⟨(urlparseL raw.toList).1.scheme, lowerL (urlparseL raw.toList).1.netloc,
       (urlparseL raw.toList).1.path, (urlparseL raw.toList).1.params,
       (urlparseL raw.toList).1.query, []⟩ := hm
  obtain ⟨h1, h2, h3, h4, h5⟩ := urlparseL_no_hash raw.toList
  rcases urlunparseL_mem rfl hx with h | h | h | h | h | h | h | h | h
  · exact h1 h
  · exact lowerL_no_hash h2 h
  · exact h3 h
  · exact h4 h
  · exact h5 h
  · exact absurd h (by decide)
  · exact absurd h (by decide)
  · exact absurd h (by decide)
  · exact absurd h (by decide)

theorem splitScheme_lower (l : List Char) :
    lowerL (splitScheme l).1 = (splitScheme l).1 := by
  unfold splitScheme
  rcases hsp : splitAtFirst ':' l with ⟨pre, r⟩
  rcases r with _ | rest
  · simp [lowerL]
  · rcases pre with _ | ⟨c, cs⟩
    · simp [lowerL]
    · dsimp only
      by_cases hc : (isAsciiAlphaCh c && cs.all schemeChar) = true
      · rw [if_pos hc]
        exact lowerL_idem _
      · rw [if_neg hc]
        simp [lowerL]

theorem urlparseL_scheme_lower (input : List Char) :
    lowerL (urlparseL input).1.scheme = (urlparseL input).1.scheme := by
  unfold urlparseL
  by_cases hsch : (urlsplitL input).1.scheme ∈ usesParamsSchemes
  · rw [if_pos hsch]
    dsimp only
    unfold urlsplitL
    dsimp only
    exact splitScheme_lower _
  · rw [if_neg hsch]
    dsimp only
    unfold urlsplitL
    dsimp only
    exact splitScheme_lower _

theorem charLe_toNat {c d : Char} (h : c ≤ d) : c.toNat ≤ d.toNat := by
  simpa [Char.le_def, UInt32.le_def, BitVec.le_def] using h

theorem alpha_not_digit {c : Char} (h : isAsciiAlphaCh c = true) :
    isAsciiDigitCh c = false := by
  by_contra hd
  rw [Bool.not_eq_false] at hd
  simp only [isAsciiDigitCh, Bool.and_eq_true, decide_eq_true_eq] at hd
  simp only [isAsciiAlphaCh, Bool.or_eq_true, Bool.and_eq_true, decide_eq_true_eq] at h
  have k1 := charLe_toNat hd.1
  have k2 := charLe_toNat hd.2
  have e0 : ('0').toNat = 48 := by decide
  have e9 : ('9').toNat = 57 := by decide
  rcases h with ⟨ha1, ha2⟩ | ⟨ha1, ha2⟩
  · have j1 := charLe_toNat ha1
    have j2 := charLe_toNat ha2
    have ea : ('a').toNat = 97 := by decide
    have ez : ('z').toNat = 122 := by decide
    omega
  · have j1 := charLe_toNat ha1
    have j2 := charLe_toNat ha2
    have ea : ('A').toNat = 65 := by decide
    have ez : ('Z').toNat = 90 := by decide
    omega

/-! ### Round trip of normalization: parsing the normalized output returns
the same path, params and query verbatim and the lowercased netloc.
Character-level facts first. -/

theorem charLe_iff {c d : Char} : c ≤ d ↔ c.toNat ≤ d.toNat := by
  simp [Char.le_def, UInt32.le_def, BitVec.le_def, Char.toNat, UInt32.toNat]

theorem lowerChar_toNat (c : Char) :
    (lowerChar c).toNat =
      if 'A' ≤ c && c ≤ 'Z' then c.toNat + 32 else c.toNat := by
  unfold lowerChar
  by_cases h : ('A' ≤ c && c ≤ 'Z') = true
  · rw [if_pos h, if_pos h]
    have hb : 'A' ≤ c ∧ c ≤ 'Z' := by
      simpa [Bool.and_eq_true, decide_eq_true_eq] using h
    have h2 := upper_toNat_le hb.2
    exact toNat_ofNat_of_valid (Or.inl (by omega))
  · rw [if_neg h, if_neg h]

theorem lowerChar_of_not_upper {c : Char}
    (h : ¬(65 ≤ c.toNat ∧ c.toNat ≤ 90)) : lowerChar c = c := by
  unfold lowerChar
  rw [if_neg]
  intro hu
  have hb : 'A' ≤ c ∧ c ≤ 'Z' := by
    simpa [Bool.and_eq_true, decide_eq_true_eq] using hu
  exact h ⟨upper_le_toNat hb.1, upper_toNat_le hb.2⟩

theorem lowerChar_eq_nonlower {c d : Char} (hd : d.toNat < 97)
    (h : lowerChar c = d) : c = d := by
  unfold lowerChar at h
  split at h
  · rename_i hc
    exfalso
    simp only [Bool.and_eq_true, decide_eq_true_eq] at hc
    have h1 := upper_le_toNat hc.1
    have h2 := upper_toNat_le hc.2
    have h3 := congrArg Char.toNat h
    rw [toNat_ofNat_of_valid (Or.inl (by omega))] at h3
    omega
  · exact h

theorem lowerChar_alpha {c : Char} (h : isAsciiAlphaCh c = true) :
    isAsciiAlphaCh (lowerChar c) = true := by
  by_cases hu : ('A' ≤ c && c ≤ 'Z') = true
  · have hb : 'A' ≤ c ∧ c ≤ 'Z' := by
      simpa [Bool.and_eq_true, decide_eq_true_eq] using hu
    have h1 := upper_le_toNat hb.1
    have h2 := upper_toNat_le hb.2
    have ht : (lowerChar c).toNat = c.toNat + 32 := by
      rw [lowerChar_toNat, if_pos hu]
    simp only [isAsciiAlphaCh, Bool.or_eq_true, Bool.and_eq_true, decide_eq_true_eq]
    left
    have ea : ('a').toNat = 97 := by decide
    have ez : ('z').toNat = 122 := by decide
    exact ⟨charLe_iff.mpr (by omega), charLe_iff.mpr (by omega)⟩
  · have he : lowerChar c = c := by
      unfold lowerChar
      rw [if_neg hu]
    rw [he]
    exact h

theorem lowerChar_schemeChar {c : Char} (h : schemeChar c = true) :
    schemeChar (lowerChar c) = true := by
  simp only [schemeChar, Bool.or_eq_true] at h
  rcases h with (((h | h) | h) | h) | h
  · simp only [schemeChar, Bool.or_eq_true]
    exact Or.inl (Or.inl (Or.inl (Or.inl (lowerChar_alpha h))))
  · have hd : isAsciiDigitCh c = true := h
    simp only [isAsciiDigitCh, Bool.and_eq_true, decide_eq_true_eq] at hd
    have k1 := charLe_toNat hd.1
    have k2 := charLe_toNat hd.2
    have e0 : ('0').toNat = 48 := by decide
    have e9 : ('9').toNat = 57 := by decide
    rw [lowerChar_of_not_upper (by omega)]
    simp only [schemeChar, Bool.or_eq_true]
    exact Or.inl (Or.inl (Or.inl (Or.inr h)))
  · have he : c = '+' := by simpa using h
    subst he
    decide
  · have he : c = '-' := by simpa using h
    subst he
    decide
  · have he : c = '.' := by simpa using h
    subst he
    decide

theorem lowerChar_netlocChar {c : Char} (h : netlocChar c = true) :
    netlocChar (lowerChar c) = true := by
  by_contra hx
  rw [Bool.not_eq_true] at hx
  unfold netlocChar at hx
  have hx' : ¬lowerChar c = '/' → ¬lowerChar c = '?' → lowerChar c = '#' := by
    simpa [Bool.or_eq_true, decide_eq_true_eq, or_assoc] using hx
  have hx2 : lowerChar c = '/' ∨ lowerChar c = '?' ∨ lowerChar c = '#' := by
    by_cases h1 : lowerChar c = '/'
    · exact Or.inl h1
    · by_cases h2 : lowerChar c = '?'
      · exact Or.inr (Or.inl h2)
      · exact Or.inr (Or.inr (hx' h1 h2))
  rcases hx2 with he | he | he
  · rw [lowerChar_eq_nonlower (by decide) he] at h
    exact absurd h (by decide)
  · rw [lowerChar_eq_nonlower (by decide) he] at h
    exact absurd h (by decide)
  · rw [lowerChar_eq_nonlower (by decide) he] at h
    exact absurd h (by decide)

theorem alpha_not_c0 {c : Char} (h : isAsciiAlphaCh c = true) :
    isC0ControlOrSpace c = false := by
  simp only [isAsciiAlphaCh, Bool.or_eq_true, Bool.and_eq_true, decide_eq_true_eq] at h
  have hb : 65 ≤ c.toNat := by
    rcases h with ⟨h1, _⟩ | ⟨h1, _⟩
    · have := charLe_toNat h1
      have : ('a').toNat = 97 := by decide
      omega
    · have := charLe_toNat h1
      have : ('A').toNat = 65 := by decide
      omega
  simp only [isC0ControlOrSpace]
  exact decide_eq_false (by omega)

theorem schemeChar_not_unsafe {c : Char} (h : schemeChar c = true) :
    c ≠ '\t' ∧ c ≠ '\r' ∧ c ≠ '\n' := by
  refine ⟨?_, ?_, ?_⟩ <;> (rintro rfl; exact absurd h (by decide))

theorem splitAtFirst_of_not_mem {c : Char} {l : List Char} (h : c ∉ l) :
    splitAtFirst c l = (l, none) := by
  induction l with
  | nil => rfl
  | cons x xs ih =>
    have hx : x ≠ c := fun he => h (he ▸ List.mem_cons_self x xs)
    rw [splitAtFirst_cons_neg xs hx, ih (fun hm => h (List.mem_cons_of_mem x hm))]

theorem splitAtFirst_append_not_mem {c : Char} {a b : List Char} (h : c ∉ a) :
    splitAtFirst c (a ++ c :: b) = (a, some b) := by
  induction a with
  | nil => exact splitAtFirst_cons_pos b
  | cons x xs ih =>
    have hx : x ≠ c := fun he => h (he ▸ List.mem_cons_self x xs)
    rw [List.cons_append, splitAtFirst_cons_neg _ hx,
        ih (fun hm => h (List.mem_cons_of_mem x hm))]

theorem takeWhile_append_of_all {p : Char → Bool} {a b : List Char}
    (h : a.all p = true) : (a ++ b).takeWhile p = a ++ b.takeWhile p := by
  induction a with
  | nil => simp
  | cons x xs ih =>
    rcases List.all_cons .. ▸ h with h'
    rcases Bool.and_eq_true .. ▸ h' with ⟨h1, h2⟩
    rw [List.cons_append, List.takeWhile_cons_of_pos h1, ih h2, List.cons_append]

theorem dropWhile_append_of_all {p : Char → Bool} {a b : List Char}
    (h : a.all p = true) : (a ++ b).dropWhile p = b.dropWhile p := by
  induction a with
  | nil => simp
  | cons x xs ih =>
    rcases List.all_cons .. ▸ h with h'
    rcases Bool.and_eq_true .. ▸ h' with ⟨h1, h2⟩
    rw [List.cons_append, List.dropWhile_cons_of_pos h1, ih h2]

theorem dropWhile_shape (p : Char → Bool) (l : List Char) :
    l.dropWhile p = [] ∨
      ∃ d t, l.dropWhile p = d :: t ∧ p d = false := by
  induction l with
  | nil => exact Or.inl rfl
  | cons x xs ih =>
    by_cases hx : p x = true
    · rw [List.dropWhile_cons_of_pos hx]
      exact ih
    · rw [List.dropWhile_cons_of_neg hx]
      exact Or.inr ⟨x, xs, rfl, Bool.not_eq_true _ ▸ hx⟩

/-! ### Component facts of the parse used by the round trip -/

theorem splitFragment_fst_subset (l : List Char) :
    ∀ x ∈ (splitFragment l).1, x ∈ l := by
  unfold splitFragment
  rcases h : splitAtFirst '#' l with ⟨a, r⟩
  rcases r with _ | b
  · dsimp only
    obtain ⟨ha, _⟩ := splitAtFirst_none h
    subst ha
    exact fun x hx => hx
  · dsimp only
    obtain ⟨hl, _⟩ := splitAtFirst_some h
    intro x hx
    rw [hl]
    simp [hx]

theorem splitFragment_fst_head (l : List Char) :
    (splitFragment l).1 = [] ∨ (splitFragment l).1.head? = l.head? := by
  unfold splitFragment
  rcases h : splitAtFirst '#' l with ⟨a, r⟩
  rcases r with _ | b
  · dsimp only
    obtain ⟨ha, _⟩ := splitAtFirst_none h
    subst ha
    exact Or.inr rfl
  · dsimp only
    obtain ⟨hl, _⟩ := splitAtFirst_some h
    rcases a with _ | ⟨x, xs⟩
    · exact Or.inl rfl
    · rw [hl]
      exact Or.inr rfl

theorem splitQuery_fst_head (l : List Char) :
    (splitQuery l).1 = [] ∨ (splitQuery l).1.head? = l.head? := by
  unfold splitQuery
  rcases h : splitAtFirst '?' l with ⟨a, r⟩
  rcases r with _ | b
  · dsimp only
    obtain ⟨ha, _⟩ := splitAtFirst_none h
    subst ha
    exact Or.inr rfl
  · dsimp only
    obtain ⟨hl, _⟩ := splitAtFirst_some h
    rcases a with _ | ⟨x, xs⟩
    · exact Or.inl rfl
    · rw [hl]
      exact Or.inr rfl

theorem splitQuery_fst_no_qmark (l : List Char) : '?' ∉ (splitQuery l).1 := by
  unfold splitQuery
  rcases h : splitAtFirst '?' l with ⟨a, r⟩
  rcases r with _ | b
  · dsimp only
    obtain ⟨ha, hc⟩ := splitAtFirst_none h
    subst ha
    exact hc
  · dsimp only
    exact (splitAtFirst_some h).2

theorem splitQuery_of_no_qmark {l : List Char} (h : '?' ∉ l) :
    splitQuery l = (l, []) := by
  unfold splitQuery
  rw [splitAtFirst_of_not_mem h]

theorem splitQuery_append {a q : List Char} (h : '?' ∉ a) :
    splitQuery (a ++ '?' :: q) = (a, q) := by
  unfold splitQuery
  rw [splitAtFirst_append_not_mem h]

theorem splitFragment_of_no_hash {l : List Char} (h : '#' ∉ l) :
    splitFragment l = (l, []) := by
  unfold splitFragment
  rw [splitAtFirst_of_not_mem h]

theorem splitScheme_snd_subset (l : List Char) :
    ∀ x ∈ (splitScheme l).2, x ∈ l := by
  unfold splitScheme
  rcases hsp : splitAtFirst ':' l with ⟨pre, r⟩
  rcases r with _ | rest
  · dsimp only
    exact fun x hx => hx
  · rcases pre with _ | ⟨c, cs⟩
    · dsimp only
      exact fun x hx => hx
    · dsimp only
      obtain ⟨hl, _⟩ := splitAtFirst_some hsp
      by_cases hc : (isAsciiAlphaCh c && cs.all schemeChar) = true
      · rw [if_pos hc]
        intro x hx
        rw [hl]
        simp [hx]
      · rw [if_neg hc]
        exact fun x hx => hx

theorem splitScheme_fst_spec {l : List Char} (h : (splitScheme l).1 ≠ []) :
    ∃ d ds, (splitScheme l).1 = d :: ds ∧ isAsciiAlphaCh d = true ∧
      ds.all schemeChar = true := by
  unfold splitScheme at h ⊢
  rcases hsp : splitAtFirst ':' l with ⟨pre, r⟩
  rw [hsp] at h
  rcases r with _ | rest
  · exact absurd rfl h
  · rcases pre with _ | ⟨c, cs⟩
    · exact absurd rfl h
    · dsimp only at h ⊢
      by_cases hc : (isAsciiAlphaCh c && cs.all schemeChar) = true
      · rw [if_pos hc]
        rcases Bool.and_eq_true .. ▸ hc with ⟨h1, h2⟩
        refine ⟨lowerChar c, lowerL cs, rfl, lowerChar_alpha h1, ?_⟩
        rw [List.all_eq_true] at h2 ⊢
        intro x hx
        rcases List.mem_map.mp hx with ⟨y, hy, rfl⟩
        exact lowerChar_schemeChar (h2 y hy)
      · rw [if_neg hc] at h
        exact absurd rfl h

theorem splitNetloc_fst_all (l : List Char) :
    (splitNetloc l).1.all netlocChar = true := by
  unfold splitNetloc
  by_cases hif : l.take 2 = ['/', '/']
  · rw [if_pos hif]
    rw [List.all_eq_true]
    intro x hx
    exact List.mem_takeWhile_imp hx
  · rw [if_neg hif]
    rfl

theorem splitNetloc_fst_subset (l : List Char) :
    ∀ x ∈ (splitNetloc l).1, x ∈ l := by
  unfold splitNetloc
  by_cases hif : l.take 2 = ['/', '/']
  · rw [if_pos hif]
    intro x hx
    exact List.drop_subset 2 l ((List.takeWhile_sublist _).subset hx)
  · rw [if_neg hif]
    intro x hx
    simp at hx

theorem splitNetloc_snd_subset (l : List Char) :
    ∀ x ∈ (splitNetloc l).2, x ∈ l := by
  unfold splitNetloc
  by_cases hif : l.take 2 = ['/', '/']
  · rw [if_pos hif]
    intro x hx
    exact List.drop_subset 2 l ((List.dropWhile_sublist _).subset hx)
  · rw [if_neg hif]
    exact fun x hx => hx

theorem splitNetloc_snd_shape {l : List Char} (h : (splitNetloc l).1 ≠ []) :
    (splitNetloc l).2 = [] ∨
      ∃ d t, (splitNetloc l).2 = d :: t ∧ netlocChar d = false := by
  unfold splitNetloc at h ⊢
  by_cases hif : l.take 2 = ['/', '/']
  · rw [if_pos hif]
    exact dropWhile_shape netlocChar (l.drop 2)
  · rw [if_neg hif] at h
    exact absurd rfl h

theorem splitParamsL_nil : splitParamsL [] = ([], []) := rfl

theorem splitParamsL_reconstruct (path : List Char) :
    ((splitParamsL path).1 = path ∧ (splitParamsL path).2 = []) ∨
      path = (splitParamsL path).1 ++ ';' :: (splitParamsL path).2 := by
  unfold splitParamsL
  by_cases hsc : path.contains ';'
  · rw [if_pos hsc]
    rcases hsp : splitAtFirst '/' path.reverse with ⟨afterRev, r⟩
    rcases r with _ | beforeRev
    · dsimp only
      rcases hsp2 : splitAtFirst ';' path with ⟨a, r2⟩
      rcases r2 with _ | b
      · dsimp only
        obtain ⟨ha, _⟩ := splitAtFirst_none hsp2
        exact Or.inl ⟨ha, rfl⟩
      · dsimp only
        obtain ⟨hpl, _⟩ := splitAtFirst_some hsp2
        exact Or.inr hpl
    · dsimp only
      obtain ⟨hrev, _⟩ := splitAtFirst_some hsp
      have hpath : path = beforeRev.reverse ++ '/' :: afterRev.reverse := by
        have h2 := congrArg List.reverse hrev
        simpa using h2
      rcases hsp3 : splitAtFirst ';' afterRev.reverse with ⟨a, r3⟩
      rcases r3 with _ | b
      · dsimp only
        exact Or.inl ⟨rfl, rfl⟩
      · dsimp only
        obtain ⟨hseg, _⟩ := splitAtFirst_some hsp3
        refine Or.inr ?_
        rw [hpath, hseg]
        simp
  · rw [if_neg hsc]
    exact Or.inl ⟨rfl, rfl⟩

theorem contains_eq_false_of_not_mem {l : List Char} {c : Char} (h : c ∉ l) :
    l.contains c = false := by
  by_contra hx
  rw [Bool.not_eq_false] at hx
  exact h (List.elem_iff.mp hx)

theorem contains_eq_true_of_mem {l : List Char} {c : Char} (h : c ∈ l) :
    l.contains c = true := List.elem_iff.mpr h

theorem splitParamsL_of_no_semi {path : List Char} (h : ';' ∉ path) :
    splitParamsL path = (path, []) := by
  unfold splitParamsL
  rw [if_neg]
  rw [contains_eq_false_of_not_mem h]
  simp

theorem splitParamsL_fst_self {path : List Char}
    (h2 : (splitParamsL path).2 = []) :
    splitParamsL (splitParamsL path).1 = ((splitParamsL path).1, []) := by
  rcases hsp0 : splitParamsL path with ⟨p1, p2⟩
  rw [hsp0] at h2
  dsimp only at h2 ⊢
  subst h2
  unfold splitParamsL at hsp0
  by_cases hsc : path.contains ';'
  · rw [if_pos hsc] at hsp0
    rcases hsp : splitAtFirst '/' path.reverse with ⟨afterRev, r⟩
    rw [hsp] at hsp0
    rcases r with _ | beforeRev
    · dsimp only at hsp0
      rcases hsp2 : splitAtFirst ';' path with ⟨a, r2⟩
      rw [hsp2] at hsp0
      rcases r2 with _ | b
      · dsimp only at hsp0
        obtain ⟨ha, hnc⟩ := splitAtFirst_none hsp2
        have h1 : a = p1 := congrArg Prod.fst hsp0
        subst h1
        rw [ha]
        unfold splitParamsL
        rw [if_neg]
        rw [contains_eq_false_of_not_mem hnc]
        simp
      · dsimp only at hsp0
        have h1 : a = p1 := congrArg Prod.fst hsp0
        have hb : b = [] := congrArg Prod.snd hsp0
        subst h1
        obtain ⟨_, hna⟩ := splitAtFirst_some hsp2
        exact splitParamsL_of_no_semi hna
    · dsimp only at hsp0
      obtain ⟨hrev, hnsl⟩ := splitAtFirst_some hsp
      rcases hsp3 : splitAtFirst ';' afterRev.reverse with ⟨a, r3⟩
      rw [hsp3] at hsp0
      rcases r3 with _ | b
      · dsimp only at hsp0
        have h1 : path = p1 := congrArg Prod.fst hsp0
        subst h1
        unfold splitParamsL
        rw [if_pos hsc, hsp]
        dsimp only
        rw [hsp3]
      · dsimp only at hsp0
        have h1 : beforeRev.reverse ++ '/' :: a = p1 := congrArg Prod.fst hsp0
        obtain ⟨hseg, hna⟩ := splitAtFirst_some hsp3
        have hslA : '/' ∉ a := by
          intro hm
          have : '/' ∈ afterRev.reverse := by
            rw [hseg]
            simp [hm]
          exact hnsl (List.mem_reverse.mp this)
        by_cases hsemi : ';' ∈ p1
        · unfold splitParamsL
          rw [if_pos (contains_eq_true_of_mem hsemi)]
          have hp1rev : p1.reverse = a.reverse ++ '/' :: beforeRev.reverse.reverse := by
            rw [← h1]
            simp
          have hnaR : '/' ∉ a.reverse := fun hm => hslA (List.mem_reverse.mp hm)
          rw [hp1rev, splitAtFirst_append_not_mem hnaR]
          dsimp only
          rw [List.reverse_reverse, splitAtFirst_of_not_mem hna]
        · exact splitParamsL_of_no_semi hsemi
  · rw [if_neg hsc] at hsp0
    have h1 : path = p1 := congrArg Prod.fst hsp0
    subst h1
    unfold splitParamsL
    rw [if_neg hsc]

theorem splitParamsL_roundtrip (path : List Char) :
    splitParamsL
      (if (splitParamsL path).2 ≠ []
       then (splitParamsL path).1 ++ ';' :: (splitParamsL path).2
       else (splitParamsL path).1) = splitParamsL path := by
  by_cases h2 : (splitParamsL path).2 = []
  · rw [if_neg (by simpa using h2)]
    rw [splitParamsL_fst_self h2]
    rcases hsp : splitParamsL path with ⟨p1, p2⟩
    rw [hsp] at h2
    dsimp only at h2
    rw [h2]
  · rw [if_pos h2]
    rcases splitParamsL_reconstruct path with ⟨_, he⟩ | hre
    · exact absurd he h2
    · rw [← hre]

/-! ### Component equations of urlsplit and urlparse -/

theorem urlsplitL_scheme_eq (input : List Char) :
    (urlsplitL input).1.scheme =
      (splitScheme (removeUnsafe (input.dropWhile isC0ControlOrSpace))).1 := rfl

theorem urlsplitL_netloc_eq (input : List Char) :
    (urlsplitL input).1.netloc =
      (splitNetloc
        (splitScheme (removeUnsafe (input.dropWhile isC0ControlOrSpace))).2).1 := rfl

theorem urlsplitL_path_eq (input : List Char) :
    (urlsplitL input).1.path =
      (splitQuery (splitFragment
        (splitNetloc
          (splitScheme (removeUnsafe (input.dropWhile isC0ControlOrSpace))).2).2).1).1 :=
  rfl

theorem urlsplitL_query_eq (input : List Char) :
    (urlsplitL input).1.query =
      (splitQuery (splitFragment
        (splitNetloc
          (splitScheme (removeUnsafe (input.dropWhile isC0ControlOrSpace))).2).2).1).2 :=
  rfl

theorem urlsplitL_snd_eq (input : List Char) :
    (urlsplitL input).2 =
      ((urlsplitL input).1.netloc.contains '[' ||
       (urlsplitL input).1.netloc.contains ']') := rfl

theorem urlparseL_scheme_eq (input : List Char) :
    (urlparseL input).1.scheme = (urlsplitL input).1.scheme := by
  unfold urlparseL
  by_cases h : (urlsplitL input).1.scheme ∈ usesParamsSchemes
  · rw [if_pos h]
  · rw [if_neg h]

theorem urlparseL_netloc_eq (input : List Char) :
    (urlparseL input).1.netloc = (urlsplitL input).1.netloc := by
  unfold urlparseL
  by_cases h : (urlsplitL input).1.scheme ∈ usesParamsSchemes
  · rw [if_pos h]
  · rw [if_neg h]

theorem urlparseL_query_eq (input : List Char) :
    (urlparseL input).1.query = (urlsplitL input).1.query := by
  unfold urlparseL
  by_cases h : (urlsplitL input).1.scheme ∈ usesParamsSchemes
  · rw [if_pos h]
  · rw [if_neg h]

theorem urlparseL_snd_eq (input : List Char) :
    (urlparseL input).2 = (urlsplitL input).2 := by
  unfold urlparseL
  by_cases h : (urlsplitL input).1.scheme ∈ usesParamsSchemes
  · rw [if_pos h]
  · rw [if_neg h]

theorem urlparseL_path_params_eq (input : List Char) :
    ((urlparseL input).1.path, (urlparseL input).1.params) =
      (if (urlsplitL input).1.scheme ∈ usesParamsSchemes
       then splitParamsL (urlsplitL input).1.path
       else ((urlsplitL input).1.path, [])) := by
  unfold urlparseL
  by_cases h : (urlsplitL input).1.scheme ∈ usesParamsSchemes
  · rw [if_pos h, if_pos h]
  · rw [if_neg h, if_neg h]
    rfl

theorem removeUnsafe_mem {l : List Char} {x : Char} (h : x ∈ removeUnsafe l) :
    x ≠ '\t' ∧ x ≠ '\r' ∧ x ≠ '\n' := by
  unfold removeUnsafe at h
  have hp := List.of_mem_filter h
  refine ⟨?_, ?_, ?_⟩ <;> (rintro rfl; simp at hp)

theorem urlsplitL_clean (input : List Char) :
    ∀ x, (x ∈ (urlsplitL input).1.netloc ∨ x ∈ (urlsplitL input).1.path ∨
        x ∈ (urlsplitL input).1.query) →
      x ≠ '\t' ∧ x ≠ '\r' ∧ x ≠ '\n' := by
  intro x hx
  refine removeUnsafe_mem (l := (input.dropWhile isC0ControlOrSpace)) ?_
  rcases hx with hx | hx | hx
  · rw [urlsplitL_netloc_eq] at hx
    exact splitScheme_snd_subset _ x (splitNetloc_fst_subset _ x hx)
  · rw [urlsplitL_path_eq] at hx
    have h1 := (splitQuery_subset _).1 x hx
    have h2 := splitFragment_fst_subset _ x h1
    exact splitScheme_snd_subset _ x (splitNetloc_snd_subset _ x h2)
  · rw [urlsplitL_query_eq] at hx
    have h1 := (splitQuery_subset _).2 x hx
    have h2 := splitFragment_fst_subset _ x h1
    exact splitScheme_snd_subset _ x (splitNetloc_snd_subset _ x h2)

theorem urlsplitL_path_no_qmark (input : List Char) :
    '?' ∉ (urlsplitL input).1.path := by
  rw [urlsplitL_path_eq]
  exact splitQuery_fst_no_qmark _

theorem netlocChar_false_cases {d : Char} (hd : netlocChar d = false) :
    d = '/' ∨ d = '?' ∨ d = '#' := by
  unfold netlocChar at hd
  have hx' : ¬d = '/' → ¬d = '?' → d = '#' := by
    simpa [Bool.or_eq_true, decide_eq_true_eq, or_assoc] using hd
  by_cases h1 : d = '/'
  · exact Or.inl h1
  · by_cases h2 : d = '?'
    · exact Or.inr (Or.inl h2)
    · exact Or.inr (Or.inr (hx' h1 h2))

theorem urlsplitL_path_shape (input : List Char)
    (hn : (urlsplitL input).1.netloc ≠ []) :
    (urlsplitL input).1.path = [] ∨
      (urlsplitL input).1.path.head? = some '/' := by
  rw [urlsplitL_netloc_eq] at hn
  rcases splitNetloc_snd_shape hn with h2 | ⟨d, t, h2, hd⟩
  · left
    rw [urlsplitL_path_eq, h2]
    rfl
  · rcases splitQuery_fst_head (splitFragment
        (splitNetloc (splitScheme
          (removeUnsafe (input.dropWhile isC0ControlOrSpace))).2).2).1 with hq | hq
    · left
      rw [urlsplitL_path_eq]
      exact hq
    · rcases splitFragment_fst_head (splitNetloc (splitScheme
          (removeUnsafe (input.dropWhile isC0ControlOrSpace))).2).2 with hf | hf
      · left
        rw [urlsplitL_path_eq, hf]
        rfl
      · have hph : (urlsplitL input).1.path.head? = some d := by
          rw [urlsplitL_path_eq, hq, hf, h2]
          rfl
        rcases netlocChar_false_cases hd with rfl | rfl | rfl
        · exact Or.inr hph
        · exfalso
          obtain ⟨ys, hys⟩ := List.head?_eq_some_iff.mp hph
          exact urlsplitL_path_no_qmark input (hys ▸ List.mem_cons_self _ _)
        · exfalso
          obtain ⟨ys, hys⟩ := List.head?_eq_some_iff.mp hph
          exact (urlsplitL_no_hash input).2.2.1 (hys ▸ List.mem_cons_self _ _)

theorem urlparseL_shape (input : List Char)
    (hn : (urlparseL input).1.netloc ≠ []) :
    ((urlparseL input).1.path = [] ∧ (urlparseL input).1.params = []) ∨
      (urlparseL input).1.path.head? = some '/' := by
  rw [urlparseL_netloc_eq] at hn
  have hshape := urlsplitL_path_shape input hn
  have hpp := urlparseL_path_params_eq input
  by_cases h : (urlsplitL input).1.scheme ∈ usesParamsSchemes
  · rw [if_pos h] at hpp
    have h1 : (urlparseL input).1.path =
        (splitParamsL (urlsplitL input).1.path).1 := congrArg Prod.fst hpp
    have h2 : (urlparseL input).1.params =
        (splitParamsL (urlsplitL input).1.path).2 := congrArg Prod.snd hpp
    rcases hshape with hpe | hph
    · left
      rw [h1, h2, hpe, splitParamsL_nil]
      exact ⟨rfl, rfl⟩
    · right
      rcases splitParamsL_reconstruct (urlsplitL input).1.path with ⟨ha, _⟩ | hre
      · rw [h1, ha]
        exact hph
      · rcases hfst : (splitParamsL (urlsplitL input).1.path).1 with _ | ⟨e, es⟩
        · exfalso
          rw [hfst] at hre
          rw [hre] at hph
          simp at hph
        · rw [hfst] at hre
          rw [hre] at hph
          simp at hph
          rw [h1, hfst]
          simp [hph]
  · rw [if_neg h] at hpp
    have h1 : (urlparseL input).1.path = (urlsplitL input).1.path :=
      congrArg Prod.fst hpp
    have h2 : (urlparseL input).1.params = [] := congrArg Prod.snd hpp
    rcases hshape with hpe | hph
    · exact Or.inl ⟨h1.trans hpe, h2⟩
    · exact Or.inr (h1 ▸ hph)

theorem splitScheme_append_valid {scheme rest : List Char}
    (hspec : ∃ d ds, scheme = d :: ds ∧ isAsciiAlphaCh d = true ∧
      ds.all schemeChar = true) :
    splitScheme (scheme ++ ':' :: rest) = (lowerL scheme, rest) := by
  obtain ⟨d, ds, rfl, hd, hds⟩ := hspec
  have hnc : ':' ∉ d :: ds := by
    intro hm
    rcases List.mem_cons.mp hm with he | hm
    · rw [← he] at hd
      exact absurd hd (by decide)
    · have := List.all_eq_true.mp hds _ hm
      exact absurd this (by decide)
  unfold splitScheme
  rw [splitAtFirst_append_not_mem hnc]
  dsimp only
  rw [if_pos]
  rw [Bool.and_eq_true]
  exact ⟨hd, hds⟩

theorem splitNetloc_append {netloc t : List Char}
    (hall : netloc.all netlocChar = true)
    (ht : t = [] ∨ ∃ d t', t = d :: t' ∧ netlocChar d = false) :
    splitNetloc ('/' :: '/' :: (netloc ++ t)) = (netloc, t) := by
  unfold splitNetloc
  rw [if_pos (show List.take 2 ('/' :: '/' :: (netloc ++ t)) = ['/', '/'] from rfl)]
  dsimp only
  have hdrop : ('/' :: '/' :: (netloc ++ t)).drop 2 = netloc ++ t := rfl
  rw [hdrop, takeWhile_append_of_all hall, dropWhile_append_of_all hall]
  rcases ht with rfl | ⟨d, t', rfl, hd⟩
  · simp
  · rw [List.takeWhile_cons_of_neg (by simp [hd]),
        List.dropWhile_cons_of_neg (by simp [hd])]
    simp

theorem urlunsplitL_shape {scheme netloc pp query : List Char}
    (hs : scheme ≠ []) (hn : netloc ≠ [])
    (hpp : pp = [] ∨ pp.head? = some '/') :
    urlunsplitL scheme netloc pp query [] =
      scheme ++ ':' :: '/' :: '/' ::
        (netloc ++ (pp ++ (if query ≠ [] then '?' :: query else []))) := by
  have hinner : ¬(pp ≠ [] ∧ pp.head? ≠ some '/') := by
    rcases hpp with rfl | hph
    · simp
    · simp [hph]
  unfold urlunsplitL
  dsimp only
  rw [if_neg (by simp)]
  by_cases hq : query ≠ []
  · rw [if_pos hq, if_pos hq, if_pos (Or.inl hn), if_neg hinner, if_pos hs]
    simp
  · rw [if_neg hq, if_neg hq, if_pos (Or.inl hn), if_neg hinner, if_pos hs]
    simp

theorem urlparseL_no_qmark (input : List Char) :
    '?' ∉ (urlparseL input).1.path ∧ '?' ∉ (urlparseL input).1.params := by
  have h3 := urlsplitL_path_no_qmark input
  have hpp := urlparseL_path_params_eq input
  by_cases h : (urlsplitL input).1.scheme ∈ usesParamsSchemes
  · rw [if_pos h] at hpp
    have h1 : (urlparseL input).1.path =
        (splitParamsL (urlsplitL input).1.path).1 := congrArg Prod.fst hpp
    have h2 : (urlparseL input).1.params =
        (splitParamsL (urlsplitL input).1.path).2 := congrArg Prod.snd hpp
    constructor
    · rw [h1]
      intro hm
      exact h3 ((splitParamsL_subset _).1 _ hm)
    · rw [h2]
      intro hm
      exact h3 ((splitParamsL_subset _).2 _ hm)
  · rw [if_neg h] at hpp
    have h1 : (urlparseL input).1.path = (urlsplitL input).1.path :=
      congrArg Prod.fst hpp
    have h2 : (urlparseL input).1.params = [] := congrArg Prod.snd hpp
    rw [h1, h2]
    exact ⟨h3, by simp⟩

theorem urlsplitL_of_unsplit
    {scheme netloc pp query : List Char}
    (hs_ne : scheme ≠ [])
    (hs_spec : ∃ d ds, scheme = d :: ds ∧ isAsciiAlphaCh d = true ∧
      ds.all schemeChar = true)
    (hs_low : lowerL scheme = scheme)
    (hn_ne : netloc ≠ [])
    (hn_all : netloc.all netlocChar = true)
    (hn_clean : ∀ x ∈ netloc, x ≠ '\t' ∧ x ≠ '\r' ∧ x ≠ '\n')
    (hn_brl : '[' ∉ netloc) (hn_brr : ']' ∉ netloc)
    (hpp_shape : pp = [] ∨ pp.head? = some '/')
    (hpp_nh : '#' ∉ pp) (hpp_nq : '?' ∉ pp)
    (hpp_clean : ∀ x ∈ pp, x ≠ '\t' ∧ x ≠ '\r' ∧ x ≠ '\n')
    (hq_nh : '#' ∉ query)
    (hq_clean : ∀ x ∈ query, x ≠ '\t' ∧ x ≠ '\r' ∧ x ≠ '\n') :
    urlsplitL (urlunsplitL scheme netloc pp query []) =
      (⟨scheme, netloc, pp, [], query, []⟩, false) := by
  obtain ⟨d, ds, hsch, hd_alpha, hds⟩ := hs_spec
  rw [urlunsplitL_shape hs_ne hn_ne hpp_shape]
  have hQ_shape : pp ++ (if query ≠ [] then '?' :: query else []) = [] ∨
      ∃ e t', pp ++ (if query ≠ [] then '?' :: query else []) = e :: t' ∧
        netlocChar e = false := by
    rcases hpp_shape with rfl | hph
    · by_cases hq : query ≠ []
      · rw [if_pos hq]
        exact Or.inr ⟨'?', query, rfl, by decide⟩
      · rw [if_neg hq]
        exact Or.inl rfl
    · obtain ⟨ys, rfl⟩ := List.head?_eq_some_iff.mp hph
      exact Or.inr ⟨'/', ys ++ (if query ≠ [] then '?' :: query else []),
        by simp, by decide⟩
  have hQnh : '#' ∉ pp ++ (if query ≠ [] then '?' :: query else []) := by
    intro hm
    rcases List.mem_append.mp hm with hm | hm
    · exact hpp_nh hm
    · by_cases hq : query ≠ []
      · rw [if_pos hq] at hm
        rcases List.mem_cons.mp hm with he | hm
        · exact absurd he (by decide)
        · exact hq_nh hm
      · rw [if_neg hq] at hm
        simp at hm
  have hfr := splitFragment_of_no_hash hQnh
  have hsq : splitQuery (pp ++ (if query ≠ [] then '?' :: query else [])) =
      (pp, query) := by
    by_cases hq : query ≠ []
    · rw [if_pos hq]
      exact splitQuery_append hpp_nq
    · rw [if_neg hq, List.append_nil]
      rw [splitQuery_of_no_qmark hpp_nq]
      simp at hq
      rw [hq]
  have hneg : ¬isC0ControlOrSpace d = true := by
    simp [alpha_not_c0 hd_alpha]
  have hdw : (scheme ++ ':' :: '/' :: '/' ::
        (netloc ++ (pp ++ (if query ≠ [] then '?' :: query else [])))).dropWhile
        isC0ControlOrSpace =
      scheme ++ ':' :: '/' :: '/' ::
        (netloc ++ (pp ++ (if query ≠ [] then '?' :: query else []))) := by
    rw [hsch, List.cons_append, List.dropWhile_cons_of_neg hneg]
  have hclean : ∀ a ∈ scheme ++ ':' :: '/' :: '/' ::
      (netloc ++ (pp ++ (if query ≠ [] then '?' :: query else []))),
      (!(a = '\t' || a = '\r' || a = '\n')) = true := by
    intro a ha
    have h3 : a ≠ '\t' ∧ a ≠ '\r' ∧ a ≠ '\n' := by
      rcases List.mem_append.mp ha with ha | ha
      · have hsc : schemeChar a = true := by
          rw [hsch] at ha
          rcases List.mem_cons.mp ha with rfl | ha
          · simp only [schemeChar, Bool.or_eq_true]
            exact Or.inl (Or.inl (Or.inl (Or.inl hd_alpha)))
          · exact List.all_eq_true.mp hds _ ha
        exact schemeChar_not_unsafe hsc
      · rcases List.mem_cons.mp ha with rfl | ha
        · exact ⟨by decide, by decide, by decide⟩
        · rcases List.mem_cons.mp ha with rfl | ha
          · exact ⟨by decide, by decide, by decide⟩
          · rcases List.mem_cons.mp ha with rfl | ha
            · exact ⟨by decide, by decide, by decide⟩
            · rcases List.mem_append.mp ha with ha | ha
              · exact hn_clean a ha
              · rcases List.mem_append.mp ha with ha | ha
                · exact hpp_clean a ha
                · by_cases hq : query ≠ []
                  · rw [if_pos hq] at ha
                    rcases List.mem_cons.mp ha with rfl | ha
                    · exact ⟨by decide, by decide, by decide⟩
                    · exact hq_clean a ha
                  · rw [if_neg hq] at ha
                    simp at ha
    simp [h3.1, h3.2.1, h3.2.2]
  have hru : removeUnsafe (scheme ++ ':' :: '/' :: '/' ::
        (netloc ++ (pp ++ (if query ≠ [] then '?' :: query else [])))) =
      scheme ++ ':' :: '/' :: '/' ::
        (netloc ++ (pp ++ (if query ≠ [] then '?' :: query else []))) := by
    unfold removeUnsafe
    rw [List.filter_eq_self]
    exact hclean
  have hss := @splitScheme_append_valid scheme
    ('/' :: '/' :: (netloc ++ (pp ++ (if query ≠ [] then '?' :: query else []))))
    ⟨d, ds, hsch, hd_alpha, hds⟩
  rw [hs_low] at hss
  have hsn := splitNetloc_append hn_all hQ_shape
  unfold urlsplitL
  dsimp only
  rw [hdw, hru, hss]
  dsimp only
  rw [hsn]
  dsimp only
  rw [hfr]
  dsimp only
  rw [hsq]
  dsimp only
  rw [contains_eq_false_of_not_mem hn_brl, contains_eq_false_of_not_mem hn_brr]
  rfl

theorem urlparseL_eval (w : List Char) (r : UrlRec)
    (hw : urlsplitL w = (r, false)) :
    urlparseL w =
      (if r.scheme ∈ usesParamsSchemes
       then (⟨r.scheme, r.netloc, (splitParamsL r.path).1,
             (splitParamsL r.path).2, r.query, r.fragment⟩, false)
       else (r, false)) := by
  unfold urlparseL
  rw [hw]

theorem urlparse_roundtrip (input : List Char)
    (hb : (urlparseL input).2 = false)
    (hs : (urlparseL input).1.scheme ≠ [])
    (hn : (urlparseL input).1.netloc ≠ []) :
    urlparseL (urlunparseL
      ⟨(urlparseL input).1.scheme, lowerL (urlparseL input).1.netloc,
       (urlparseL input).1.path, (urlparseL input).1.params,
       (urlparseL input).1.query, []⟩) =
    (⟨(urlparseL input).1.scheme, lowerL (urlparseL input).1.netloc,
      (urlparseL input).1.path, (urlparseL input).1.params,
      (urlparseL input).1.query, []⟩, false) := by
  have hs0 : (urlsplitL input).1.scheme ≠ [] := by
    rw [← urlparseL_scheme_eq]
    exact hs
  have hs1 : (splitScheme (removeUnsafe (input.dropWhile isC0ControlOrSpace))).1 ≠ [] := by
    rw [← urlsplitL_scheme_eq]
    exact hs0
  have hs_spec : ∃ d ds, (urlparseL input).1.scheme = d :: ds ∧
      isAsciiAlphaCh d = true ∧ ds.all schemeChar = true := by
    rw [urlparseL_scheme_eq, urlsplitL_scheme_eq]
    exact splitScheme_fst_spec hs1
  have hs_low := urlparseL_scheme_lower input
  have hn_ne : lowerL (urlparseL input).1.netloc ≠ [] := by
    simp only [lowerL, ne_eq, List.map_eq_nil_iff]
    exact hn
  have hn_all0 : (urlparseL input).1.netloc.all netlocChar = true := by
    rw [urlparseL_netloc_eq, urlsplitL_netloc_eq]
    exact splitNetloc_fst_all _
  have hn_all : (lowerL (urlparseL input).1.netloc).all netlocChar = true := by
    rw [List.all_eq_true] at hn_all0 ⊢
    intro x hx
    rcases List.mem_map.mp hx with ⟨y, hy, rfl⟩
    exact lowerChar_netlocChar (hn_all0 y hy)
  have hn_clean : ∀ x ∈ lowerL (urlparseL input).1.netloc,
      x ≠ '\t' ∧ x ≠ '\r' ∧ x ≠ '\n' := by
    intro x hx
    rcases List.mem_map.mp hx with ⟨y, hy, rfl⟩
    have hy2 : y ∈ (urlsplitL input).1.netloc := by
      rw [← urlparseL_netloc_eq]
      exact hy
    have hy3 := urlsplitL_clean input y (Or.inl hy2)
    refine ⟨?_, ?_, ?_⟩ <;> intro he
    · exact hy3.1 (lowerChar_eq_nonlower (by decide) he)
    · exact hy3.2.1 (lowerChar_eq_nonlower (by decide) he)
    · exact hy3.2.2 (lowerChar_eq_nonlower (by decide) he)
  have hflag : ((urlsplitL input).1.netloc.contains '[' ||
      (urlsplitL input).1.netloc.contains ']') = false := by
    rw [← urlsplitL_snd_eq, ← urlparseL_snd_eq]
    exact hb
  have hflag2 : (urlsplitL input).1.netloc.contains '[' = false ∧
      (urlsplitL input).1.netloc.contains ']' = false := by
    rcases Bool.or_eq_false_iff.mp hflag with ⟨h1, h2⟩
    exact ⟨h1, h2⟩
  have hn_brl : '[' ∉ lowerL (urlparseL input).1.netloc := by
    intro hm
    rcases List.mem_map.mp hm with ⟨y, hy, he⟩
    have hyb : y = '[' := lowerChar_eq_nonlower (by decide) he
    subst hyb
    have hy2 : '[' ∈ (urlsplitL input).1.netloc := by
      rw [← urlparseL_netloc_eq]
      exact hy
    have hc := contains_eq_true_of_mem hy2
    rw [hflag2.1] at hc
    simp at hc
  have hn_brr : ']' ∉ lowerL (urlparseL input).1.netloc := by
    intro hm
    rcases List.mem_map.mp hm with ⟨y, hy, he⟩
    have hyb : y = ']' := lowerChar_eq_nonlower (by decide) he
    subst hyb
    have hy2 : ']' ∈ (urlsplitL input).1.netloc := by
      rw [← urlparseL_netloc_eq]
      exact hy
    have hc := contains_eq_true_of_mem hy2
    rw [hflag2.2] at hc
    simp at hc
  have hshape := urlparseL_shape input hn
  have hnh := urlparseL_no_hash input
  have hnq := urlparseL_no_qmark input
  have hsub : ∀ x, (x ∈ (urlparseL input).1.path ∨ x ∈ (urlparseL input).1.params) →
      x ∈ (urlsplitL input).1.path := by
    have hpp := urlparseL_path_params_eq input
    by_cases h : (urlsplitL input).1.scheme ∈ usesParamsSchemes
    · rw [if_pos h] at hpp
      have h1 : (urlparseL input).1.path =
          (splitParamsL (urlsplitL input).1.path).1 := congrArg Prod.fst hpp
      have h2 : (urlparseL input).1.params =
          (splitParamsL (urlsplitL input).1.path).2 := congrArg Prod.snd hpp
      intro x hx
      rcases hx with hx | hx
      · rw [h1] at hx
        exact (splitParamsL_subset _).1 _ hx
      · rw [h2] at hx
        exact (splitParamsL_subset _).2 _ hx
    · rw [if_neg h] at hpp
      have h1 : (urlparseL input).1.path = (urlsplitL input).1.path :=
        congrArg Prod.fst hpp
      have h2 : (urlparseL input).1.params = [] := congrArg Prod.snd hpp
      intro x hx
      rcases hx with hx | hx
      · rw [h1] at hx
        exact hx
      · rw [h2] at hx
        simp at hx
  have hq_eq : (urlparseL input).1.query = (urlsplitL input).1.query :=
    urlparseL_query_eq input
  have hpp_shape :
      (if (urlparseL input).1.params ≠ []
       then (urlparseL input).1.path ++ ';' :: (urlparseL input).1.params
       else (urlparseL input).1.path) = [] ∨
      (if (urlparseL input).1.params ≠ []
       then (urlparseL input).1.path ++ ';' :: (urlparseL input).1.params
       else (urlparseL input).1.path).head? = some '/' := by
    by_cases hpar : (urlparseL input).1.params ≠ []
    · rcases hshape with ⟨_, hpe⟩ | hph
      · exact absurd hpe hpar
      · right
        rw [if_pos hpar]
        obtain ⟨ys, hys⟩ := List.head?_eq_some_iff.mp hph
        rw [hys]
        rfl
    · rw [if_neg hpar]
      rcases hshape with ⟨hpe, _⟩ | hph
      · exact Or.inl hpe
      · exact Or.inr hph
  have hpp_nh : '#' ∉
      (if (urlparseL input).1.params ≠ []
       then (urlparseL input).1.path ++ ';' :: (urlparseL input).1.params
       else (urlparseL input).1.path) := by
    by_cases hpar : (urlparseL input).1.params ≠ []
    · rw [if_pos hpar]
      intro hm
      rcases List.mem_append.mp hm with hm | hm
      · exact hnh.2.2.1 hm
      · rcases List.mem_cons.mp hm with he | hm
        · exact absurd he (by decide)
        · exact hnh.2.2.2.1 hm
    · rw [if_neg hpar]
      exact hnh.2.2.1
  have hpp_nq : '?' ∉
      (if (urlparseL input).1.params ≠ []
       then (urlparseL input).1.path ++ ';' :: (urlparseL input).1.params
       else (urlparseL input).1.path) := by
    by_cases hpar : (urlparseL input).1.params ≠ []
    · rw [if_pos hpar]
      intro hm
      rcases List.mem_append.mp hm with hm | hm
      · exact hnq.1 hm
      · rcases List.mem_cons.mp hm with he | hm
        · exact absurd he (by decide)
        · exact hnq.2 hm
    · rw [if_neg hpar]
      exact hnq.1
  have hpp_clean : ∀ x ∈
      (if (urlparseL input).1.params ≠ []
       then (urlparseL input).1.path ++ ';' :: (urlparseL input).1.params
       else (urlparseL input).1.path), x ≠ '\t' ∧ x ≠ '\r' ∧ x ≠ '\n' := by
    intro x hx
    by_cases hpar : (urlparseL input).1.params ≠ []
    · rw [if_pos hpar] at hx
      rcases List.mem_append.mp hx with hx | hx
      · exact urlsplitL_clean input x (Or.inr (Or.inl (hsub x (Or.inl hx))))
      · rcases List.mem_cons.mp hx with rfl | hx
        · exact ⟨by decide, by decide, by decide⟩
        · exact urlsplitL_clean input x (Or.inr (Or.inl (hsub x (Or.inr hx))))
    · rw [if_neg hpar] at hx
      exact urlsplitL_clean input x (Or.inr (Or.inl (hsub x (Or.inl hx))))
  have hq_clean : ∀ x ∈ (urlparseL input).1.query,
      x ≠ '\t' ∧ x ≠ '\r' ∧ x ≠ '\n' := by
    intro x hx
    rw [hq_eq] at hx
    exact urlsplitL_clean input x (Or.inr (Or.inr hx))
  have hq_nh : '#' ∉ (urlparseL input).1.query := hnh.2.2.2.2
  have hkey := urlsplitL_of_unsplit hs hs_spec hs_low hn_ne hn_all hn_clean
    hn_brl hn_brr hpp_shape hpp_nh hpp_nq hpp_clean hq_nh hq_clean
  show urlparseL (urlunsplitL (urlparseL input).1.scheme
      (lowerL (urlparseL input).1.netloc)
      (if (urlparseL input).1.params ≠ []
       then (urlparseL input).1.path ++ ';' :: (urlparseL input).1.params
       else (urlparseL input).1.path)
      (urlparseL input).1.query []) = _
  rw [urlparseL_eval _ _ hkey]
  dsimp only
  have hppq := urlparseL_path_params_eq input
  by_cases h : (urlsplitL input).1.scheme ∈ usesParamsSchemes
  · have hcond : (urlparseL input).1.scheme ∈ usesParamsSchemes := by
      rw [urlparseL_scheme_eq]
      exact h
    rw [if_pos h] at hppq
    rw [if_pos hcond]
    have h1 : (urlparseL input).1.path =
        (splitParamsL (urlsplitL input).1.path).1 := congrArg Prod.fst hppq
    have h2 : (urlparseL input).1.params =
        (splitParamsL (urlsplitL input).1.path).2 := congrArg Prod.snd hppq
    have h3 : splitParamsL
        (if (urlparseL input).1.params ≠ []
         then (urlparseL input).1.path ++ ';' :: (urlparseL input).1.params
         else (urlparseL input).1.path) =
        ((urlparseL input).1.path, (urlparseL input).1.params) := by
      rw [h1, h2]
      exact splitParamsL_roundtrip (urlsplitL input).1.path
    rw [h3]
  · have hcond : (urlparseL input).1.scheme ∉ usesParamsSchemes := by
      rw [urlparseL_scheme_eq]
      exact h
    rw [if_neg h] at hppq
    rw [if_neg hcond]
    have h2 : (urlparseL input).1.params = [] := congrArg Prod.snd hppq
    rw [h2]
    simp

theorem is_valid_url_spec {raw : String} (h : is_valid_url raw = true) :
    parseRaises raw = false ∧ (urlparseL raw.toList).1.scheme ≠ [] ∧
      (urlparseL raw.toList).1.netloc ≠ [] := by
  unfold is_valid_url at h
  by_cases hb : parseRaises raw = true
  · rw [if_pos hb] at h
    simp at h
  · rw [if_neg hb] at h
    dsimp only at h
    rw [Bool.and_eq_true] at h
    refine ⟨Bool.not_eq_true _ ▸ hb, ?_, ?_⟩
    · have h1 := h.1
      rw [Bool.not_eq_true'] at h1
      exact List.isEmpty_eq_false.mp h1
    · have h2 := h.2
      rw [Bool.not_eq_true'] at h2
      exact List.isEmpty_eq_false.mp h2

/-! ## Claims -/

/-- C1: over any crawl from the initial state, the frontier never yields
the same normalized URL twice — the sequence of popped URLs has no
duplicate — and offering an already-visited or already-pending URL leaves
the crawl state (both pending and visited sets) unchanged. -/
theorem C1_frontier_no_revisit :
    (∀ (env : Env) (start : String) (us : List String) (s' : SpiderState),
      Run env (initState start) us s' → us.Nodup) ∧
    (∀ (s : SpiderState) (u : String), u ∈ s.visited ∨ u ∈ s.pending →
      offer s {u} = s) := by
  constructor
  · intro env start us s' h
    exact (run_nodup_aux h (by simp [initState])).1
  · intro s u hu
    unfold offer
    rcases hu with hv | hp
    · have he : ({u} : Finset String).filter (fun l => l ∉ s.visited) = ∅ := by
        rw [Finset.filter_singleton]
        simp [hv]
      rw [he, Finset.union_empty]
    · have he : s.pending ∪ ({u} : Finset String).filter (fun l => l ∉ s.visited)
          = s.pending := by
        rw [Finset.filter_singleton]
        by_cases hv : u ∈ s.visited
        · simp [hv]
        · simp only [hv, not_false_iff, if_pos]
          exact Finset.union_eq_left.mpr (by simpa using hp)
      rw [he]

theorem C1_frontier_no_revisit_witness :
    ([urlA] : List String).Nodup ∧
    offer ⟨{urlA}, {urlB}, [], []⟩ {urlB} = ⟨{urlA}, {urlB}, [], []⟩ := by
  constructor
  · exact C1_frontier_no_revisit.1 soloEnv urlA [urlA]
      (stepOn soloEnv (initState urlA) urlA)
      (Run.cons _ _ _ _ (by decide) (Run.nil _))
  · exact C1_frontier_no_revisit.2 ⟨{urlA}, {urlB}, [], []⟩ urlB (Or.inr (by decide))

/-- C2: on a finite link graph every crawl execution is bounded by the
size of the URL universe and a completed crawl (empty frontier) exists;
concretely, on the two-page cycle A→B→A every completed crawl pops exactly
A then B and finishes with both visited exactly once, and on a one-page
site with no outbound links every completed crawl processes exactly one
page. -/
theorem C2_crawl_terminates :
    (∀ (env : Env) (U : Finset String) (start : String) (us : List String)
        (s' : SpiderState),
      LinksIn env U → normalize_url start ∈ U →
      Run env (initState start) us s' → us.length ≤ U.card) ∧
    (∀ (env : Env) (U : Finset String) (start : String),
      LinksIn env U → normalize_url start ∈ U →
      ∃ us s', Run env (initState start) us s' ∧ s'.pending = ∅) ∧
    (∀ (us : List String) (s' : SpiderState),
      Run cycleEnv (initState urlA) us s' → s'.pending = ∅ →
      us = [urlA, urlB] ∧ s'.visited = {urlA, urlB}) ∧
    (∀ (us : List String) (s' : SpiderState),
      Run soloEnv (initState urlA) us s' → s'.pending = ∅ → us = [urlA]) := by
  refine ⟨?_, ?_, ?_, ?_⟩
  · intro env U start us s' hL hstart hrun
    exact run_length_le hrun hL (by simpa [initState] using hstart)
      (by simp [initState]) (by simp [initState])
  · intro env U start hL hstart
    exact run_to_done hL U.card (initState start)
      (by simpa [initState] using hstart) (by simp [initState])
      (by simp [initState]) (by simp [initState])
  · intro us s' hrun hdone
    cases hrun with
    | nil => exact absurd hdone (by decide)
    | cons s url us1 s1 hmem hrun1 =>
      have hurl : url = urlA := by
        have h2 : (initState urlA).pending = {urlA} := by decide
        rw [h2] at hmem
        exact Finset.mem_singleton.mp hmem
      subst hurl
      have e1 : stepOn cycleEnv (initState urlA) urlA =
          (⟨{urlA}, {urlB}, [], [(urlA, [])]⟩ : SpiderState) := by decide
      rw [e1] at hrun1
      cases hrun1 with
      | nil => exact absurd hdone (by decide)
      | cons s2 url2 us2 s3 hmem2 hrun2 =>
        have hurl2 : url2 = urlB := by
          have h3 : (⟨{urlA}, {urlB}, [], [(urlA, [])]⟩ : SpiderState).pending
              = {urlB} := rfl
          rw [h3] at hmem2
          exact Finset.mem_singleton.mp hmem2
        subst hurl2
        have e2 : stepOn cycleEnv ⟨{urlA}, {urlB}, [], [(urlA, [])]⟩ urlB =
            (⟨{urlB, urlA}, ∅, [], [(urlA, []), (urlB, [])]⟩ : SpiderState) := by
          decide
        rw [e2] at hrun2
        cases hrun2 with
        | nil => exact ⟨rfl, by decide⟩
        | cons s4 url3 us3 s5 hmem3 hrun3 => exact absurd hmem3 (Finset.not_mem_empty _)
  · intro us s' hrun hdone
    cases hrun with
    | nil => exact absurd hdone (by decide)
    | cons s url us1 s1 hmem hrun1 =>
      have hurl : url = urlA := by
        have h2 : (initState urlA).pending = {urlA} := by decide
        rw [h2] at hmem
        exact Finset.mem_singleton.mp hmem
      subst hurl
      have e1 : stepOn soloEnv (initState urlA) urlA =
          (⟨{urlA}, ∅, [("solo", 1), ("page", 1), ("here", 1)],
            [(urlA, [("solo", 1), ("page", 1), ("here", 1)])]⟩ : SpiderState) := by
        decide
      rw [e1] at hrun1
      cases hrun1 with
      | nil => rfl
      | cons s2 url2 us2 s3 hmem2 hrun2 => exact absurd hmem2 (Finset.not_mem_empty _)

theorem C2_crawl_terminates_witness :
    ([urlA] : List String).length ≤ ({urlA} : Finset String).card ∧
    (∃ us s', Run soloEnv (initState urlA) us s' ∧ s'.pending = ∅) ∧
    ([urlA, urlB] = [urlA, urlB] ∧
      (stepOn cycleEnv (stepOn cycleEnv (initState urlA) urlA) urlB).visited
        = {urlA, urlB}) ∧
    ([urlA] : List String) = [urlA] := by
  refine ⟨?_, ?_, ?_, ?_⟩
  · exact C2_crawl_terminates.1 soloEnv {urlA} urlA [urlA]
      (stepOn soloEnv (initState urlA) urlA)
      (fun url html _ => by simp [soloEnv]) (by decide)
      (Run.cons _ _ _ _ (by decide) (Run.nil _))
  · exact C2_crawl_terminates.2.1 soloEnv {urlA} urlA
      (fun url html _ => by simp [soloEnv]) (by decide)
  · exact C2_crawl_terminates.2.2.1 [urlA, urlB]
      (stepOn cycleEnv (stepOn cycleEnv (initState urlA) urlA) urlB)
      (Run.cons _ _ _ _ (by decide)
        (Run.cons _ _ _ _ (by decide) (Run.nil _))) (by decide)
  · exact C2_crawl_terminates.2.2.2 [urlA]
      (stepOn soloEnv (initState urlA) urlA)
      (Run.cons _ _ _ _ (by decide) (Run.nil _)) (by decide)

/-- C3: every URL a crawl ever visits, holds pending, or dequeues is
same-domain with the (normalized) seed — the links kept at each step are
filtered against the current page, but the current page is always
same-domain with the seed, and the www-insensitive domain comparison is
transitive, so domain containment relative to the seed holds throughout. -/
theorem C3_domain_scope_seed :
    ∀ (env : Env) (start : String) (us : List String) (s' : SpiderState),
      Run env (initState start) us s' →
      (∀ u ∈ s'.visited, is_same_domain u (normalize_url start) = true) ∧
      (∀ u ∈ s'.pending, is_same_domain u (normalize_url start) = true) ∧
      (∀ u ∈ us, is_same_domain u (normalize_url start) = true) := by
  intro env start us s' h
  have hinit : DomainInv (normalize_url start) (initState start) := by
    constructor
    · intro u hu
      simp [initState] at hu
    · intro u hu
      simp only [initState, Finset.mem_singleton] at hu
      subst hu
      exact is_same_domain_refl _
  obtain ⟨⟨h1, h2⟩, h3⟩ := run_domainInv h hinit
  exact ⟨h1, h2, h3⟩

theorem C3_domain_scope_seed_witness :
    is_same_domain urlB (normalize_url urlA) = true := by
  exact (C3_domain_scope_seed cycleEnv urlA [urlA]
      (stepOn cycleEnv (initState urlA) urlA)
      (Run.cons _ _ _ _ (by decide) (Run.nil _))).2.1 urlB (by decide)

/-- C4: at every observation point between loop iterations — that is, in
every state reachable by a crawl from the initial state — the visited and
pending sets are disjoint, and every page-record key belongs to the
visited set. -/
theorem C4_state_invariants :
    ∀ (env : Env) (start : String) (us : List String) (s' : SpiderState),
      Run env (initState start) us s' →
      Disjoint s'.visited s'.pending ∧
      ∀ k ∈ s'.records.map Prod.fst, k ∈ s'.visited := by
  intro env start us s' h
  exact run_stateInv h ⟨by simp [initState], by simp [initState]⟩

theorem C4_state_invariants_witness :
    Disjoint (stepOn soloEnv (initState urlA) urlA).visited
      (stepOn soloEnv (initState urlA) urlA).pending ∧
    urlA ∈ (stepOn soloEnv (initState urlA) urlA).visited := by
  have h := C4_state_invariants soloEnv urlA [urlA]
    (stepOn soloEnv (initState urlA) urlA)
    (Run.cons _ _ _ _ (by decide) (Run.nil _))
  exact ⟨h.1, h.2 urlA (by decide)⟩

/-- C5: when the fetch of a pending URL fails (network error, timeout,
non-2xx status or a non-HTML content type, all of which make fetch_page
return no content), the step still marks the URL visited, contributes
nothing to the word counts or page records, removes the URL from the
frontier, and the crawl continues: the failing step is a legal run and any
URL still pending afterwards can be processed next. -/
theorem C5_fetch_failure_nonfatal :
    ∀ (env : Env) (s : SpiderState) (url : String),
      url ∈ s.pending → url ∉ s.visited → env.fetch url = none →
      (stepOn env s url).visited = insert url s.visited ∧
      (stepOn env s url).counts = s.counts ∧
      (stepOn env s url).records = s.records ∧
      (stepOn env s url).pending = s.pending.erase url ∧
      Run env s [url] (stepOn env s url) ∧
      (∀ v ∈ (stepOn env s url).pending,
        Run env s [url, v] (stepOn env (stepOn env s url) v)) := by
  intro env s url hp hv hf
  have he := stepOn_of_fail hv (Or.inl hf)
  refine ⟨by rw [he], by rw [he], by rw [he], by rw [he], ?_, ?_⟩
  · exact Run.cons _ _ _ _ hp (Run.nil _)
  · intro v hvp
    exact Run.cons _ _ _ _ hp (Run.cons _ _ _ _ hvp (Run.nil _))

theorem C5_fetch_failure_nonfatal_witness :
    Run emptyBodyEnv ⟨∅, {urlB, urlA}, [], []⟩ [urlB, urlA]
      (stepOn emptyBodyEnv (stepOn emptyBodyEnv ⟨∅, {urlB, urlA}, [], []⟩ urlB) urlA) ∧
    (stepOn emptyBodyEnv ⟨∅, {urlB, urlA}, [], []⟩ urlB).counts = [] := by
  have h := C5_fetch_failure_nonfatal emptyBodyEnv ⟨∅, {urlB, urlA}, [], []⟩ urlB
    (by decide) (by decide) (by decide)
  exact ⟨h.2.2.2.2.2 urlA (by decide), h.2.1⟩

/-- C6 counterexample: tokenization is not plain maximal-letter-run
matching — the pattern requires word boundaries on both flanks, so for the
input "co2" the run "co" is NOT produced (the digit supplies no boundary),
refuting the claim that "co" is produced as a candidate. -/
theorem C6_tokenizer_counterexample :
    findallWords "co2" = [] ∧ "co" ∉ findallWords "see co2 here" ∧
    extract_words [] "co2" = [] := by
  refine ⟨by decide, by decide, by decide⟩

/-- C6 amended: tokenization produces exactly the maximal word-character
runs (letters, digits, underscore) of the lowercased text that consist
solely of ASCII letters; a letter run adjacent to a digit or underscore is
dropped entirely ("co2" yields nothing), no produced token is empty or
contains a digit, and runs flanked by punctuation or spaces are produced. -/
theorem C6_tokenizer_amended :
    (∀ (t w : String), w ∈ findallWords t →
      w.toList ≠ [] ∧ ∀ c ∈ w.toList,
        isAsciiAlphaCh c = true ∧ isAsciiDigitCh c = false) ∧
    findallWords "co2" = [] ∧
    findallWords "cat, dog!" = ["cat", "dog"] ∧
    findallWords "ab2cd ef" = ["ef"] := by
  refine ⟨?_, by decide, by decide, by decide⟩
  intro t w h
  obtain ⟨hne, hall⟩ := findallWords_shape h
  exact ⟨hne, fun c hc => ⟨hall c hc, alpha_not_digit (hall c hc)⟩⟩

theorem C6_tokenizer_amended_witness :
    "cat".toList ≠ [] ∧ ∀ c ∈ "cat".toList,
      isAsciiAlphaCh c = true ∧ isAsciiDigitCh c = false := by
  exact C6_tokenizer_amended.1 "cat, dog!" "cat" (by decide)

/-- C7: normalization drops the fragment entirely (no `#` survives in the
output), the scheme produced by parsing is already lowercase (so the
re-serialized scheme is lowercase), any two URLs whose parses differ only
in fragment or in netloc letter case normalize to equal strings, and — the
round trip — on every valid URL (parse does not raise, scheme and netloc
nonempty) re-parsing the normalized output returns exactly the original
scheme, the host lowercased, the path, params and query of the original
parse verbatim (character case and trailing slashes included), and an
empty fragment. -/
theorem C7_normalize_url_spec :
    (∀ raw : String, parseRaises raw = false →
      '#' ∉ (normalize_url raw).toList) ∧
    (∀ raw : String,
      lowerL (urlparseL raw.toList).1.scheme = (urlparseL raw.toList).1.scheme) ∧
    (∀ u v : String, parseRaises u = false → parseRaises v = false →
      (urlparseL u.toList).1.scheme = (urlparseL v.toList).1.scheme →
      lowerL (urlparseL u.toList).1.netloc = lowerL (urlparseL v.toList).1.netloc →
      (urlparseL u.toList).1.path = (urlparseL v.toList).1.path →
      (urlparseL u.toList).1.params = (urlparseL v.toList).1.params →
      (urlparseL u.toList).1.query = (urlparseL v.toList).1.query →
      normalize_url u = normalize_url v) ∧
    (∀ raw : String, is_valid_url raw = true →
      urlparseL (normalize_url raw).toList =
        (⟨(urlparseL raw.toList).1.scheme,
          lowerL (urlparseL raw.toList).1.netloc,
          (urlparseL raw.toList).1.path,
          (urlparseL raw.toList).1.params,
          (urlparseL raw.toList).1.query, []⟩, false)) := by
  refine ⟨?_, ?_, ?_, ?_⟩
  · intro raw _
    exact normalize_url_no_hash raw
  · intro raw
    exact urlparseL_scheme_lower raw.toList
  · intro u v _ _ h1 h2 h3 h4 h5
    unfold normalize_url
    dsimp only
    rw [h1, h2, h3, h4, h5]
  · intro raw h
    obtain ⟨hb, hs, hn⟩ := is_valid_url_spec h
    exact urlparse_roundtrip raw.toList hb hs hn

theorem C7_normalize_url_spec_witness :
    '#' ∉ (normalize_url "http://Ex.com/Path?q=1#frag").toList ∧
    lowerL (urlparseL "HTTP://a.com/x".toList).1.scheme
      = (urlparseL "HTTP://a.com/x".toList).1.scheme ∧
    normalize_url "http://EXAMPLE.com/A#f" = normalize_url "http://example.COM/A" ∧
    (is_valid_url "HTTP://WWW.Ex.COM/Path/To;Par?Q=Mixed#Frag" = true ∧
      urlparseL (normalize_url "HTTP://WWW.Ex.COM/Path/To;Par?Q=Mixed#Frag").toList =
        (⟨(urlparseL "HTTP://WWW.Ex.COM/Path/To;Par?Q=Mixed#Frag".toList).1.scheme,
          lowerL (urlparseL "HTTP://WWW.Ex.COM/Path/To;Par?Q=Mixed#Frag".toList).1.netloc,
          (urlparseL "HTTP://WWW.Ex.COM/Path/To;Par?Q=Mixed#Frag".toList).1.path,
          (urlparseL "HTTP://WWW.Ex.COM/Path/To;Par?Q=Mixed#Frag".toList).1.params,
          (urlparseL "HTTP://WWW.Ex.COM/Path/To;Par?Q=Mixed#Frag".toList).1.query,
          []⟩, false)) := by
  refine ⟨?_, ?_, ?_, ?_, ?_⟩
  · exact C7_normalize_url_spec.1 "http://Ex.com/Path?q=1#frag" (by decide)
  · exact C7_normalize_url_spec.2.1 "HTTP://a.com/x"
  · exact C7_normalize_url_spec.2.2.1 "http://EXAMPLE.com/A#f" "http://example.COM/A"
      (by decide) (by decide) (by decide) (by decide) (by decide) (by decide)
      (by decide)
  · decide
  · exact C7_normalize_url_spec.2.2.2 "HTTP://WWW.Ex.COM/Path/To;Par?Q=Mixed#Frag"
      (by decide)

/-- C8: extracting words from the HTML paragraph "The Cat sat." with
stop-word set containing "the" yields exactly ["cat", "sat"] — case
folded, punctuation stripped, the stop word removed — and in general every
extracted word has length greater than 2 and is not a stop word, so a
2-letter token like "at" is dropped while "cat" is kept. -/
theorem C8_extract_example :
    extract_words ["the"] (extract_text_from_html "<p>The Cat sat.</p>")
      = ["cat", "sat"] ∧
    (∀ (ig : List String) (t w : String), w ∈ extract_words ig t →
      w.length > 2 ∧ should_ignore ig w = false) ∧
    extract_words ["the"] "at The cat" = ["cat"] := by
  refine ⟨by decide, ?_, by decide⟩
  intro ig t w h
  obtain ⟨h1, h2, _⟩ := extract_words_mem h
  exact ⟨h2, h1⟩

theorem C8_extract_example_witness :
    "cat".length > 2 ∧ should_ignore ["the"] "cat" = false := by
  exact C8_extract_example.2.1 ["the"] "The Cat sat." "cat" (by decide)

/-- C9: most_common sorts by count descending with ties kept in the
counter's insertion order: the sorted sequence is pairwise ordered by
count, the subsequence of entries with any fixed count is exactly that of
the input (a stable sort), the counter built from a word sequence lists
keys in first-insertion order, and top_n 2 of cat:3, dog:3, bird:1 (cat
inserted first) is [cat, dog] — not an alphabetical tie-break. -/
theorem C9_top_n_stable :
    (∀ c : List (String × Nat),
      List.Pairwise (fun a b => b.2 ≤ a.2) (mostCommon c)) ∧
    (∀ (c : List (String × Nat)) (k : Nat),
      (mostCommon c).filter (fun p => decide (p.2 = k))
        = c.filter (fun p => decide (p.2 = k))) ∧
    counterOf ["cat", "dog", "cat", "dog", "cat", "dog", "bird"]
      = [("cat", 3), ("dog", 3), ("bird", 1)] ∧
    top_n 2 [("cat", 3), ("dog", 3), ("bird", 1)] = [("cat", 3), ("dog", 3)] := by
  exact ⟨mostCommon_pairwise, mostCommon_filter, by decide, by decide⟩

/-- C10: a fetch that succeeds with an empty body is treated exactly like
a fetch failure — the URL is marked visited, no page record is created, no
words are counted, no links are followed — so the page-record keys can be
a strict subset of the visited set, as the concrete empty-body site shows. -/
theorem C10_empty_body_like_failure :
    (∀ (env : Env) (s : SpiderState) (url : String),
      url ∈ s.pending → url ∉ s.visited → env.fetch url = some "" →
      stepOn env s url =
        { s with visited := insert url s.visited,
                 pending := s.pending.erase url }) ∧
    ((stepOn emptyBodyEnv (initState urlA) urlA).visited = {urlA} ∧
     (stepOn emptyBodyEnv (initState urlA) urlA).records = [] ∧
     (stepOn emptyBodyEnv (initState urlA) urlA).counts = [] ∧
     (stepOn emptyBodyEnv (initState urlA) urlA).pending = ∅) := by
  refine ⟨?_, by decide, by decide, by decide, by decide⟩
  intro env s url _hp hv hf
  exact stepOn_of_fail hv (Or.inr hf)

theorem C10_empty_body_like_failure_witness :
    stepOn emptyBodyEnv ⟨∅, {urlA}, [], []⟩ urlA =
      { (⟨∅, {urlA}, [], []⟩ : SpiderState) with
          visited := insert urlA (∅ : Finset String),
          pending := ({urlA} : Finset String).erase urlA } := by
  exact C10_empty_body_like_failure.1 emptyBodyEnv ⟨∅, {urlA}, [], []⟩ urlA
    (by decide) (by decide) (by decide)

end WordSpider
